import Mathlib

/-!
# Verification of the multi-distributor transaction dispatcher

This development embeds the transaction sending core of the repository:

* `TransactionSenderService.sendTransactions` and `handleSendError`
  (the batch sender with error-driven recovery),
* `TransactionQueue` (`transaction-queue.ts`: per-distributor serial queue
  with `append`, `quit`, and the worker loop `process`),
* `DistributorQueueService.append` and `getSmallestQueue`
  (`distributor-queue.service.ts`: admission, slicing, load balancing).

Modelling conventions:

* JavaScript object identity is modelled by a store `Nat → TxData`: each
  operation object is a numeric id (`oid`), the arrays `transactionsLeft` and
  `currentBatch` are lists of oids, and `===` is oid equality.  In-place
  mutation (`tx.movedToEnd = true`, `tx.type = 'claimable_balance'`) is a
  store update, visible through every list holding the oid, exactly as for
  shared references.
* The blockchain gateway is an oracle: each submission attempt consumes one
  `GatewayEvent` from a finite trace (success, or a structured error).  The
  outcomes of the recovery side effects `addTrustline` / `refillTokens` are
  carried inside the per-operation result codes (`OpOutcome`), since the
  source consults them exactly once per failing operation.
* `await`ed sleeps are recorded in a ghost log (`sleeps`, in seconds) and
  otherwise skipped; the admin kill-switch poll (`settings.sendingEnabled`)
  only sleeps and re-polls without touching any state, and is modelled as
  always enabled.
* Ghost logs (`submitted`, `attempts`, `landedOids`, `invalidOids`,
  `droppedOids`, `pushedOids`) record observable behaviour; they influence
  nothing.
-/

/-- A token transfer operation (`QueueTransaction` in `transaction-queue.ts`):
destination address, asset, amount, payment kind, and the sticky
`movedToEnd` flag.  Addresses and asset codes are opaque numerals. -/
structure TxData where
  destination : Nat := 0
  assetCode : Nat := 0
  amount : Nat := 0
  ttype : Nat := 0        -- 0 = payment, 1 = claimable_balance
  movedToEnd : Bool := false
deriving DecidableEq, Repr, Inhabited

/-- The object heap: operation id ↦ current field values. -/
def Store : Type := Nat → TxData

/-- In-place mutation of one operation object. -/
def updateStore (st : Store) (oid : Nat) (f : TxData → TxData) : Store :=
  fun k => if k = oid then f (st k) else st k

/-- `SUPPLY_REFILL_LIMIT = 900_000_000_000` (the hard amount limit). -/
def SUPPLY_REFILL_LIMIT : Nat := 900000000000

/-- Per-operation result code from the gateway, with the outcome of the
recovery side effect folded in: for `op_src_no_trust` the Bool is whether
`addTrustline` succeeded, for `op_underfunded` whether `refillTokens`
succeeded (the source consults each exactly once per failing index). -/
inductive OpOutcome where
  | opSuccess
  | opNoTrust
  | opMalformed
  | opLineFull
  | opSrcNoTrust (added : Bool)
  | opUnderfunded (refilled : Bool)
  | opOther
deriving DecidableEq, Repr

/-- The shapes of errors thrown by `stellar.sendMultipleTokens`, as
discriminated by `handleSendError`: transport 5xx, a failure while parsing
the error payload, absent result codes, `tx_insufficient_balance`,
a missing/non-array `operations` field, or per-operation codes. -/
inductive GErr where
  | transport5xx
  | parseFail
  | noResultCodes
  | txInsufficientBalance
  | opsNotArray
  | opResults (l : List OpOutcome)
deriving DecidableEq, Repr

/-- One gateway submission attempt either returns a hash or throws. -/
inductive GatewayEvent where
  | success
  | failure (err : GErr)
deriving DecidableEq, Repr

/-- Result record of `handleSendError` (`{retry, invalidIndices?,
moveToEndIndices?, fatal?}`); the optional index arrays keep their
`undefined` / present distinction. -/
structure ErrorResult where
  retry : Bool
  invalidIndices : Option (List Nat) := none
  moveToEndIndices : Option (List Nat) := none
  fatal : Bool := false
deriving DecidableEq, Repr

/-- Output of `handleSendError`: the result record, the (possibly mutated)
heap, and a ghost flag recording whether `refillXLM` was invoked. -/
structure HandleOut where
  res : ErrorResult
  store : Store
  gasRefill : Bool

/-- The `for (let i = 0; i < operations.length; i++)` classification loop of
`handleSendError`, accumulating `invalidIndices`, `moveToEndIndices` and
`convertToClaimable` in iteration order; indices at or beyond
`currentBatch.length` are skipped. -/
def classifyLoop : List OpOutcome → Nat → Nat → List Nat × List Nat × List Nat
  | [], _, _ => ([], [], [])
  | c :: rest, len, i =>
      let r := classifyLoop rest len (i + 1)
      if len ≤ i then r
      else
        match c with
        | .opSuccess => r
        | .opNoTrust => (r.1, r.2.1, i :: r.2.2)
        | .opMalformed => (i :: r.1, r.2.1, r.2.2)
        | .opLineFull => (i :: r.1, r.2.1, r.2.2)
        | .opSrcNoTrust added => if added then r else (i :: r.1, r.2.1, r.2.2)
        | .opUnderfunded refilled => if refilled then r else (r.1, i :: r.2.1, r.2.2)
        | .opOther => (i :: r.1, r.2.1, r.2.2)

/-- `handleSendError(error, distributor, currentBatch, transactionsLeft,
issuers, id)`: 5xx, parse failures, absent result codes and a missing
operations array yield `{retry: true}`; `tx_insufficient_balance` refills
XLM then `{retry: true}`; otherwise the per-operation codes are classified
and the `convertToClaimable` indices have their type switched to
`claimable_balance` in place. -/
def handleSendError (err : GErr) (batch : List Nat) (st : Store) : HandleOut :=
  match err with
  | .transport5xx => ⟨{ retry := true }, st, false⟩
  | .parseFail => ⟨{ retry := true }, st, false⟩
  | .noResultCodes => ⟨{ retry := true }, st, false⟩
  | .txInsufficientBalance => ⟨{ retry := true }, st, true⟩
  | .opsNotArray => ⟨{ retry := true }, st, false⟩
  | .opResults l =>
      let r := classifyLoop l batch.length 0
      let st' := r.2.2.foldl
        (fun acc i => updateStore acc (batch.getD i 0) (fun t => { t with ttype := 1 })) st
      ⟨{ retry := false, invalidIndices := some r.1, moveToEndIndices := some r.2.1 }, st', false⟩

/-- Outcome of a whole `sendTransactions` run: `ok` is `{success: true}`,
`error` is `{success: false}`; `outOfTrace` marks that the finite gateway
trace was exhausted with work still pending (a model artifact, not a source
behaviour). -/
inductive SendStatus where
  | ok
  | error
  | outOfTrace
deriving DecidableEq, Repr

/-- Observable outcome of a run: final status plus the ghost logs. -/
structure RunResult where
  status : SendStatus
  submitted : List (List TxData)
  attempts : List (List Nat)
  landedOids : List Nat
  invalidOids : List Nat
  droppedOids : List Nat
  pushedOids : List Nat
  sleeps : List Nat
deriving DecidableEq, Repr

/-- Full state of `sendTransactions` between gateway calls. -/
structure St where
  store : Store
  left : List Nat        -- transactionsLeft (oids)
  batch : List Nat       -- currentBatch (oids)
  origSize : Nat         -- originalBatchSize
  badResponseRetry : Nat
  opRetry : Nat          -- operationErrorRetry
  submitted : List (List TxData)
  attempts : List (List Nat)
  landedOids : List Nat
  invalidOids : List Nat
  droppedOids : List Nat
  pushedOids : List Nat
  sleeps : List Nat

/-- Package the current ghost logs with a final status. -/
def mkResult (status : SendStatus) (s : St) : RunResult :=
  ⟨status, s.submitted, s.attempts, s.landedOids, s.invalidOids,
   s.droppedOids, s.pushedOids, s.sleeps⟩

/-- Result of one inner-loop iteration: return from `sendTransactions`,
`continue` the inner loop, or `break` to the outer loop. -/
inductive StepRes where
  | done (r : RunResult)
  | inner (s : St)
  | outer (s : St)

/-- The `moveToEndIndices` processing loop (source lines 219–234): for each
index, an operation whose `movedToEnd` flag is already set is collected in
`alreadyMoved`; otherwise the flag is set, the object is pushed to the tail
of `transactionsLeft`, and the index is kept in `actualMoveToEnd`.  Returns
(heap, transactionsLeft, actualMoveToEnd, alreadyMoved, push log). -/
def processMTE : List Nat → List Nat → Store → List Nat → List Nat →
    Store × List Nat × List Nat × List Nat × List Nat
  | [], _, st, left, plog => (st, left, [], [], plog)
  | idx :: rest, batch, st, left, plog =>
      let oid := batch.getD idx 0
      if (st oid).movedToEnd then
        let r := processMTE rest batch st left plog
        (r.1, r.2.1, r.2.2.1, idx :: r.2.2.2.1, r.2.2.2.2)
      else
        let st1 := updateStore st oid (fun t => { t with movedToEnd := true })
        let r := processMTE rest batch st1 (left ++ [oid]) (plog ++ [oid])
        (r.1, r.2.1, idx :: r.2.2.1, r.2.2.2.1, r.2.2.2.2)

/-- The transient-retry branch (source lines 198–211): increment
`badResponseRetry`; at 3 return `{success: false}`; otherwise sleep
`3^badResponseRetry` seconds and continue the inner loop. -/
def transientStep (st : Store) (s : St) : StepRes :=
  let b := s.badResponseRetry + 1
  if 3 ≤ b then .done (mkResult .error { s with store := st, badResponseRetry := b })
  else .inner { s with store := st, badResponseRetry := b, sleeps := s.sleeps ++ [3 ^ b] }

/-- The plan-application part of the catch block (source lines 213–304):
moveToEnd processing, index removal from both arrays (descending order),
the `operationErrorRetry` budget, and the unknown-state fallback. -/
def planStep (res : ErrorResult) (st : Store) (s : St) : StepRes :=
  let m : Store × List Nat × Option (List Nat) × Option (List Nat) × List Nat :=
    match res.moveToEndIndices with
    | some mte =>
        if mte.isEmpty then (st, s.left, res.invalidIndices, some mte, s.pushedOids)
        else
          let p := processMTE mte s.batch st s.left s.pushedOids
          let inv' := if p.2.2.2.1.isEmpty then res.invalidIndices
            else some ((res.invalidIndices.getD []) ++ p.2.2.2.1)
          (p.1, p.2.1, inv', some p.2.2.1, p.2.2.2.2)
    | none => (st, s.left, res.invalidIndices, none, s.pushedOids)
  let st2 := m.1
  let left2 := m.2.1
  let inv' := m.2.2.1
  let mte' := m.2.2.2.1
  let plog := m.2.2.2.2
  if inv' ≠ none ∨ mte' ≠ none then
    let toRemove := ((inv'.getD []) ++ (mte'.getD [])).dedup
    if toRemove.isEmpty then
      let o := s.opRetry + 1
      if 5 ≤ o then
        .outer { s with
          store := st2
          left := left2.drop s.origSize
          batch := []
          opRetry := o
          pushedOids := plog
          droppedOids := s.droppedOids ++ left2.take s.origSize }
      else
        .inner { s with
          store := st2
          left := left2
          opRetry := o
          pushedOids := plog
          sleeps := s.sleeps ++ [1] }
    else
      let sorted := toRemove.insertionSort (fun a b => b ≤ a)
      let batch' := sorted.foldl (fun b i => b.eraseIdx i) s.batch
      let left' := sorted.foldl (fun l i => l.eraseIdx i) left2
      let s' : St :=
        { s with
          store := st2
          left := left'
          batch := batch'
          opRetry := 0
          pushedOids := plog
          invalidOids := s.invalidOids ++ (inv'.getD []).map (fun i => s.batch.getD i 0) }
      if batch'.isEmpty then .outer { s' with batch := [] } else .inner s'
  else if res.fatal then .done (mkResult .error s)
  else
    .outer { s with
      store := st2
      left := left2.drop s.origSize
      batch := []
      pushedOids := plog
      droppedOids := s.droppedOids ++ left2.take s.origSize }

/-- The catch block: classify the error, then either the transient-retry
branch or plan application. -/
def catchStep (err : GErr) (s : St) : StepRes :=
  let h := handleSendError err s.batch s.store
  if h.res.retry then transientStep h.store s else planStep h.res h.store s

/-- The large-transaction branch on a successful single-op submission
(source lines 146–174): the clone with clamped amount has been accepted;
remove the original from `transactionsLeft` (located by object identity)
and from `currentBatch`; empty batch breaks to the outer loop. -/
def largeSuccess (li : Nat) (s : St) : StepRes :=
  let origOid := s.batch.getD li 0
  let largeTx := { s.store origOid with amount := SUPPLY_REFILL_LIMIT - 1 }
  let left' :=
    match s.left.findIdx? (fun oid => oid == origOid) with
    | some ai => s.left.eraseIdx ai
    | none => s.left
  let batch' := s.batch.eraseIdx li
  let s' := { s with
    left := left'
    batch := batch'
    submitted := s.submitted ++ [[largeTx]]
    landedOids := s.landedOids ++ [origOid] }
  if batch'.isEmpty then .outer { s' with batch := [] } else .inner s'

/-- A successful whole-batch submission (source lines 177–186): record the
hash, drop the first `currentBatch.length` entries of `transactionsLeft`,
and break the inner loop. -/
def batchSuccess (s : St) : StepRes :=
  .outer { s with
    submitted := s.submitted ++ [s.batch.map s.store]
    landedOids := s.landedOids ++ s.batch
    left := s.left.drop s.batch.length
    batch := [] }

/-- One iteration of the inner `while (true)` loop, consuming one gateway
event.  If some operation reaches `SUPPLY_REFILL_LIMIT` the first such is
cloned, clamped and submitted alone; otherwise the whole batch is
submitted.  Exceptions go to the catch block with the full current batch. -/
def step (e : GatewayEvent) (s : St) : StepRes :=
  match s.batch.findIdx? (fun oid => decide (SUPPLY_REFILL_LIMIT ≤ (s.store oid).amount)) with
  | some li =>
      let s1 := { s with attempts := s.attempts ++ [[s.batch.getD li 0]] }
      match e with
      | .success => largeSuccess li s1
      | .failure err => catchStep err s1
  | none =>
      let s1 := { s with attempts := s.attempts ++ [s.batch] }
      match e with
      | .success => batchSuccess s1
      | .failure err => catchStep err s1

/-- Outer-loop batch setup (source lines 117–121): snapshot
`originalBatchSize = min(100, transactionsLeft.length)`, slice the leading
prefix as `currentBatch`, reset both retry counters. -/
def startBatch (s : St) : St :=
  let n := min 100 s.left.length
  { s with origSize := n, batch := s.left.take n, badResponseRetry := 0, opRetry := 0 }

/-- The interleaved outer/inner loop of `sendTransactions`, driven by the
gateway trace; each iteration consumes exactly one event.  An exhausted
trace with work remaining yields `outOfTrace`. -/
def go : List GatewayEvent → St → RunResult
  | [], s => mkResult .outOfTrace s
  | e :: rest, s =>
      match step e s with
      | .done r => r
      | .inner s' => go rest s'
      | .outer s' =>
          if s'.left.isEmpty then mkResult .ok s' else go rest (startBatch s')

/-- Run the outer loop from a given state. -/
def run (trace : List GatewayEvent) (s : St) : RunResult :=
  if s.left.isEmpty then mkResult .ok s else go trace (startBatch s)

/-- Initial state of `sendTransactions`: the input is copied and sorted by
amount descending (`(a, b) => b.amount - a.amount`, a stable sort), object
ids are positions in the sorted copy, nothing yet logged. -/
def initSt (txs : List TxData) : St :=
  let sorted := txs.insertionSort (fun a b => b.amount ≤ a.amount)
  { store := fun i => sorted.getD i default,
    left := List.range sorted.length,
    batch := [], origSize := 0, badResponseRetry := 0, opRetry := 0,
    submitted := [], attempts := [], landedOids := [], invalidOids := [],
    droppedOids := [], pushedOids := [], sleeps := [] }

/-- `TransactionSenderService.sendTransactions`, as a function of the input
operations and the gateway oracle trace. -/
def sendTransactions (txs : List TxData) (trace : List GatewayEvent) : RunResult :=
  run trace (initSt txs)

/-!
## `TransactionQueue` (`transaction-queue.ts`)

The per-distributor serial queue with `append`, `quit` and the background
worker loop `process`.  The worker runs asynchronously; it is modelled as a
separate function driven by a trace of callback outcomes (`true` = the
sender callback resolved, `false` = it threw). -/

namespace TransactionQueue

/-- A `QueueItem`: a batch envelope with its retry counter.  The payload is
kept abstract as a numeric id plus its operation count. -/
structure QItem where
  itemId : Nat := 0
  opCount : Nat := 0
  retryCount : Nat := 0
deriving DecidableEq, Repr, Inhabited

/-- Queue state: the FIFO `queue`, the worker-liveness flag `processing`,
and the lifecycle flag `active`. -/
structure TQ where
  queue : List QItem
  processing : Bool
  active : Bool
deriving DecidableEq, Repr

/-- `MAX_ITEM_RETRIES = 10`. -/
def MAX_ITEM_RETRIES : Nat := 10

/-- `quit()`: set `active = false` (the worker drains out cooperatively). -/
def quit (q : TQ) : TQ := { q with active := false }

/-- `append(item)`: under the mutex, push the item to the end of the queue
and, if no worker is running, start one.  The returned Bool records whether
a worker was started.  Note: `active` is never consulted. -/
def append (q : TQ) (item : QItem) : TQ × Bool :=
  ({ q with queue := q.queue ++ [item] }, !q.processing)

/-- The worker loop `process()`: while `active` and the queue is nonempty,
shift the head item and invoke the sender callback (next outcome of the
trace); on failure increment `retryCount`, dropping the item at 10 and
otherwise unshifting it back to the front.  Sets `processing := false` on
exit.  An exhausted outcome trace stops the model. -/
def process : List Bool → TQ → TQ
  | tr, q =>
    if q.active ∧ q.queue ≠ [] then
      match q.queue, tr with
      | item :: rest, ok :: tr' =>
          if ok then process tr' { q with queue := rest }
          else
            let rc := item.retryCount + 1
            if MAX_ITEM_RETRIES ≤ rc then process tr' { q with queue := rest }
            else process tr' { q with queue := { item with retryCount := rc } :: rest }
      | _ :: _, [] => q
      | [], _ => { q with processing := false }
    else { q with processing := false }

end TransactionQueue

/-!
## `DistributorQueueService` (`distributor-queue.service.ts`)

The admission front end.  This file defines its own private
`TransactionQueue` whose `append` synchronously awaits `process()`, which
drains the queue, chunking each item's transactions into groups of 100 and
sending each chunk (all gateway errors are caught and logged inside the
loop).  Consequently an awaited `append` always returns with the queue
drained empty. -/

namespace DistributorQueueService

/-- A queued transfer as used by the admission service. -/
structure RTx where
  destination : Nat := 0
  amount : Nat := 0
deriving DecidableEq, Repr, Inhabited

/-- The private queue of `distributor-queue.service.ts`: its id, pending
items and a ghost log of every batch handed to the gateway. -/
structure RQueue where
  qid : Nat := 0
  items : List (List RTx) := []
  processedLog : List (List RTx) := []
deriving DecidableEq, Repr, Inhabited

/-- `chunkArray(array, 100)`, via a structural fuel equal to the length. -/
def chunkAux : Nat → List RTx → List (List RTx)
  | 0, _ => []
  | _, [] => []
  | fuel + 1, l => l.take 100 :: chunkAux fuel (l.drop 100)

/-- `chunkArray(array, 100)`. -/
def chunk100 (l : List RTx) : List (List RTx) := chunkAux l.length l

/-- The private queue's `append` followed by its awaited `process()` loop:
the new item is pushed, then every queued item is shifted, chunked by 100
and each chunk submitted (errors are swallowed), leaving the queue empty. -/
def drainAppend (q : RQueue) (batch : List RTx) : RQueue :=
  { q with
    items := []
    processedLog := q.processedLog ++ ((q.items ++ [batch]).map chunk100).flatten }

/-- Registry state: the queue map in iteration (insertion) order, the
pending buffer, the `isProcessing` flag, and a ghost admission log of
`(queue id, slice)` pairs. -/
structure RegState where
  queues : List RQueue := []
  pending : List RTx := []
  isProcessing : Bool := false
  admitted : List (Nat × List RTx) := []
deriving DecidableEq, Repr, Inhabited

/-- `getSmallestQueue` iteration: walk the map entries in order tracking the
first queue whose `size` is strictly below the running minimum; returns the
position of the selected queue. -/
def smallestAux : List RQueue → Nat → Option (Nat × Nat) → Option (Nat × Nat)
  | [], _, best => best
  | q :: rest, i, best =>
      let best' :=
        match best with
        | none => some (i, q.items.length)
        | some (bi, bs) => if q.items.length < bs then some (i, q.items.length) else some (bi, bs)
      smallestAux rest (i + 1) best'

/-- `getSmallestQueue()`: position of the selected queue, or `none` when the
map is empty (the source throws `'No queues available'`). -/
def getSmallestQueue (qs : List RQueue) : Option Nat :=
  (smallestAux qs 0 none).map Prod.fst

/-- The `while (pendingOperations.length > 0)` loop of `append`, with fuel:
splice the leading 100 operations, select the smallest queue and enqueue
(which synchronously drains).  A throw from `getSmallestQueue` is caught by
the surrounding `try/catch`, which exits the loop: the spliced batch is
discarded and the rest stays pending. -/
def regLoopAux : Nat → RegState → RegState
  | 0, s => s
  | fuel + 1, s =>
      if s.pending.isEmpty then s
      else
        let batch := s.pending.take 100
        let rest := s.pending.drop 100
        match getSmallestQueue s.queues with
        | none => { s with pending := rest }
        | some pos =>
            let q := s.queues.getD pos default
            regLoopAux fuel
              { s with
                pending := rest
                queues := s.queues.set pos (drainAppend q batch)
                admitted := s.admitted ++ [(q.qid, batch)] }

/-- The slicing loop, with enough fuel for the whole pending buffer. -/
def regLoop (s : RegState) : RegState := regLoopAux s.pending.length s

/-- `DistributorQueueService.append(operations, memo, id)`: if already
processing, just buffer the operations and return; otherwise set the flag,
buffer, run the slicing loop (any error caught and logged), and finally
clear the flag.  The method returns `void` in every case. -/
def append (ops : List RTx) (s : RegState) : RegState :=
  if s.isProcessing then { s with pending := s.pending ++ ops }
  else
    let s1 := regLoop { s with isProcessing := true, pending := s.pending ++ ops }
    { s1 with isProcessing := false }

end DistributorQueueService

/-!
## Helper lemmas

`keepIdx` characterises the source's batch-index removal pattern: splicing a
set of indices out of an array from back to front (descending order) equals
keeping exactly the positions outside the set. -/

/-- Keep the elements of `l` whose absolute position (starting at `k`) is
not listed in `bad`. -/
def keepIdx : List α → List Nat → Nat → List α
  | [], _, _ => []
  | a :: t, bad, k =>
      if k ∈ bad then keepIdx t bad (k + 1) else a :: keepIdx t bad (k + 1)

theorem keepIdx_sublist (l : List α) (bad : List Nat) (k : Nat) :
    List.Sublist (keepIdx l bad k) l := by
  induction l generalizing k with
  | nil => simp [keepIdx]
  | cons a t ih =>
      simp only [keepIdx]
      split
      · exact (ih (k + 1)).cons a
      · exact (ih (k + 1)).cons₂ a

theorem keepIdx_all_lt (l : List α) (bad : List Nat) (k : Nat)
    (h : ∀ j ∈ bad, j < k) : keepIdx l bad k = l := by
  induction l generalizing k with
  | nil => simp [keepIdx]
  | cons a t ih =>
      have hk : k ∉ bad := fun hmem => absurd (h k hmem) (lt_irrefl k)
      simp only [keepIdx, if_neg hk]
      exact congrArg (a :: ·) (ih (k + 1) (fun j hj => Nat.lt_succ_of_lt (h j hj)))

theorem keepIdx_append (l p : List α) (bad : List Nat) (k : Nat)
    (h : ∀ j ∈ bad, j < k + l.length) :
    keepIdx (l ++ p) bad k = keepIdx l bad k ++ p := by
  induction l generalizing k with
  | nil =>
      simp only [List.nil_append, keepIdx]
      exact keepIdx_all_lt p bad k (by simpa using h)
  | cons a t ih =>
      simp only [List.cons_append, keepIdx]
      split
      · exact ih (k + 1) (fun j hj => by have := h j hj; simp at this ⊢; omega)
      · exact congrArg (a :: ·) (ih (k + 1) (fun j hj => by have := h j hj; simp at this ⊢; omega))

theorem keepIdx_eraseIdx (l : List α) (bad : List Nat) (i k : Nat)
    (hbad : ∀ j ∈ bad, j < i) (hk : k ≤ i) :
    keepIdx (l.eraseIdx (i - k)) bad k = keepIdx l (i :: bad) k := by
  induction l generalizing k with
  | nil => simp [List.eraseIdx, keepIdx]
  | cons a t ih =>
      rcases Nat.eq_or_lt_of_le hk with heq | hlt
      · subst heq
        have h0 : k - k = 0 := Nat.sub_self k
        rw [h0]
        simp only [List.eraseIdx_cons_zero, keepIdx]
        have hmem : k ∈ k :: bad := List.mem_cons_self k bad
        rw [if_pos hmem]
        rw [keepIdx_all_lt t bad k hbad]
        rw [keepIdx_all_lt t (k :: bad) (k + 1)]
        intro j hj
        rcases List.mem_cons.mp hj with rfl | hj'
        · omega
        · exact Nat.lt_succ_of_lt (hbad j hj')
      · have hsub : i - k = (i - (k + 1)) + 1 := by omega
        rw [hsub]
        simp only [List.eraseIdx_cons_succ, keepIdx]
        have hiff : (k ∈ i :: bad) ↔ (k ∈ bad) := by
          constructor
          · intro hm
            rcases List.mem_cons.mp hm with rfl | hm'
            · omega
            · exact hm'
          · exact fun hm => List.mem_cons_of_mem i hm
        by_cases hkb : k ∈ bad
        · rw [if_pos hkb, if_pos (hiff.mpr hkb)]
          exact ih (k + 1) hlt
        · rw [if_neg hkb, if_neg (fun hm => hkb (hiff.mp hm))]
          exact congrArg (a :: ·) (ih (k + 1) hlt)

/-- Splicing a strictly descending list of indices out of `l` equals
keeping the positions outside that list. -/
theorem foldl_eraseIdx_eq_keepIdx (bad : List Nat) (l : List α)
    (hs : bad.Pairwise (fun a b => b < a)) :
    bad.foldl (fun acc i => acc.eraseIdx i) l = keepIdx l bad 0 := by
  induction bad generalizing l with
  | nil => simp [keepIdx_all_lt l [] 0 (by simp)]
  | cons i rest ih =>
      have hrest : rest.Pairwise (fun a b => b < a) := (List.pairwise_cons.mp hs).2
      have hlt : ∀ j ∈ rest, j < i := (List.pairwise_cons.mp hs).1
      simp only [List.foldl_cons]
      rw [ih (l.eraseIdx i) hrest]
      have := keepIdx_eraseIdx l rest i 0 hlt (Nat.zero_le i)
      simpa using this

/-- Bridge between `getD` and `get` at an in-range index. -/
theorem getD_eq_get (l : List α) (d : α) (n : Nat) (h : n < l.length) :
    l.getD n d = l.get ⟨n, h⟩ := by
  simp [List.getD_eq_getElem?_getD, List.getElem?_eq_getElem h]

/-- In a duplicate-free list, positions with equal entries coincide. -/
theorem getD_inj_of_nodup (l : List α) (d : α) (hnd : l.Nodup) {i j : Nat}
    (hi : i < l.length) (hj : j < l.length) (h : l.getD i d = l.getD j d) : i = j := by
  rw [getD_eq_get l d i hi, getD_eq_get l d j hj] at h
  have := List.Nodup.get_inj_iff hnd (i := ⟨i, hi⟩) (j := ⟨j, hj⟩)
  simpa using this.mp h

/-- A prefix agrees with the longer list at every in-range position. -/
theorem prefix_getD {l₁ l₂ : List α} (hp : l₁ <+: l₂) (d : α) {n : Nat}
    (h : n < l₁.length) : l₁.getD n d = l₂.getD n d := by
  obtain ⟨t, rfl⟩ := hp
  have h2 : n < (l₁ ++ t).length := by simp; omega
  rw [getD_eq_get l₁ d n h, getD_eq_get (l₁ ++ t) d n h2]
  exact (List.get_append n h).symm

theorem findIdx?_some_lt {p : α → Bool} {l : List α} :
    ∀ {k i : Nat}, List.findIdx? p l k = some i → k ≤ i ∧ i - k < l.length := by
  induction l with
  | nil => intro k i h; simp [List.findIdx?] at h
  | cons a t ih =>
      intro k i h
      rw [List.findIdx?_cons] at h
      split at h
      · cases h; constructor <;> simp
      · have := ih h
        constructor
        · omega
        · simp only [List.length_cons]; omega

theorem findIdx?_some_getD {p : α → Bool} {l : List α} (d : α) :
    ∀ {k i : Nat}, List.findIdx? p l k = some i → p (l.getD (i - k) d) = true := by
  induction l with
  | nil => intro k i h; simp [List.findIdx?] at h
  | cons a t ih =>
      intro k i h
      rw [List.findIdx?_cons] at h
      split at h
      · cases h; simpa
      · have hk := (findIdx?_some_lt h).1
        have := ih h
        have hsub : i - k = (i - (k + 1)) + 1 := by omega
        rw [hsub]
        simpa

theorem findIdx?_first {p : α → Bool} {l : List α} (d : α) :
    ∀ {k i : Nat}, List.findIdx? p l k = some i →
    ∀ j, k ≤ j → j < i → p (l.getD (j - k) d) = false := by
  induction l with
  | nil => intro k i h; simp [List.findIdx?] at h
  | cons a t ih =>
      intro k i h j hkj hji
      rw [List.findIdx?_cons] at h
      split at h
      · cases h; omega
      · rcases Nat.eq_or_lt_of_le hkj with heq | hlt
        · subst heq
          simpa using (by simpa using ‹¬ p a = true›)
        · have := ih h j hlt hji
          have hsub : j - k = (j - (k + 1)) + 1 := by omega
          rw [hsub]
          simpa

/-- In a duplicate-free list, searching for the element at position `i` by
equality finds exactly position `i`. -/
theorem nodup_findIdx_beq (l : List Nat) :
    ∀ (i : Nat), l.Nodup → ∀ (h : i < l.length),
    List.findIdx? (fun x => x == l.get ⟨i, h⟩) l 0 = some i := by
  have gen : ∀ (t : List Nat) (m k : Nat), t.Nodup → ∀ (h : m < t.length),
      List.findIdx? (fun x => x == t.get ⟨m, h⟩) t k = some (k + m) := by
    intro t
    induction t with
    | nil => intro m k _ h; simp at h
    | cons a u ih =>
        intro m k hnd h
        have hau : a ∉ u := (List.nodup_cons.mp hnd).1
        have hu : u.Nodup := (List.nodup_cons.mp hnd).2
        cases m with
        | zero =>
            rw [List.findIdx?_cons]
            simp
        | succ n =>
            have hn : n < u.length := by simpa using h
            have hcond : ¬ (a == (a :: u).get ⟨n + 1, h⟩) = true := by
              simp only [List.get_cons_succ, beq_iff_eq]
              intro hc
              exact hau (by rw [hc]; exact u.get_mem n hn)
            rw [List.findIdx?_cons, if_neg hcond]
            have hrec := ih n (k + 1) hu hn
            simp only [List.get_cons_succ]
            rw [hrec]
            congr 1
            omega
  intro i hnd h
  simpa using gen l i 0 hnd h

theorem mem_keepIdx_of_not_bad (l : List α) (bad : List Nat) :
    ∀ (k n : Nat) (hn : n < l.length), (k + n) ∉ bad →
    l.get ⟨n, hn⟩ ∈ keepIdx l bad k := by
  induction l with
  | nil => intro k n hn; simp at hn
  | cons a t ih =>
      intro k n hn hmem
      cases n with
      | zero =>
          have hk : k ∉ bad := by simpa using hmem
          simp [keepIdx, if_neg hk]
      | succ m =>
          have hm : (k + 1) + m ∉ bad := by
            intro hc; exact hmem (by convert hc using 1; omega)
          have hmt : m < t.length := by simpa using hn
          have := ih (k + 1) m hmt hm
          simp only [keepIdx]
          split
          · simpa using this
          · simp only [List.get_cons_succ]
            exact List.mem_cons_of_mem a (by simpa using this)

theorem not_mem_keepIdx_of_bad (l : List α) (bad : List Nat) :
    ∀ (k n : Nat), l.Nodup → ∀ (hn : n < l.length), (k + n) ∈ bad →
    l.get ⟨n, hn⟩ ∉ keepIdx l bad k := by
  induction l with
  | nil => intro k n _ hn; simp at hn
  | cons a t ih =>
      intro k n hnd hn hmem
      have hand : a ∉ t ∧ t.Nodup := by
        constructor
        · exact (List.nodup_cons.mp hnd).1
        · exact (List.nodup_cons.mp hnd).2
      cases n with
      | zero =>
          have hk : k ∈ bad := by simpa using hmem
          simp only [List.get_cons_zero, keepIdx, if_pos hk]
          intro hc
          exact hand.1 ((keepIdx_sublist t bad (k + 1)).mem hc)
      | succ m =>
          have hmt : m < t.length := by simpa using hn
          have hm : (k + 1) + m ∈ bad := by convert hmem using 1; omega
          have hrec := ih (k + 1) m hand.2 hmt hm
          simp only [List.get_cons_succ, keepIdx]
          have hne : t.get ⟨m, hmt⟩ ≠ a := by
            intro hc; exact hand.1 (hc ▸ t.get_mem m hmt)
          split
          · exact hrec
          · intro hc
            rcases List.mem_cons.mp hc with hc' | hc'
            · exact hne hc'
            · exact hrec hc'


/-!
## Classifier lemmas and the spec-side classification table
-/

/-- One unskipped classification step prepends the current index to at most
one of the three accumulated index lists. -/
theorem classifyLoop_cons_char (c : OpOutcome) (rest : List OpOutcome)
    (len i : Nat) (h : ¬ len ≤ i) :
    ∃ b1 b2 b3 : Bool,
      (cond b1 1 0) + (cond b2 1 0) + (cond b3 1 0) ≤ 1 ∧
      classifyLoop (c :: rest) len i =
        (cond b1 (i :: (classifyLoop rest len (i + 1)).1) (classifyLoop rest len (i + 1)).1,
         cond b2 (i :: (classifyLoop rest len (i + 1)).2.1) (classifyLoop rest len (i + 1)).2.1,
         cond b3 (i :: (classifyLoop rest len (i + 1)).2.2) (classifyLoop rest len (i + 1)).2.2) := by
  cases c with
  | opSuccess => exact ⟨false, false, false, by simp, by simp [classifyLoop, if_neg h]⟩
  | opNoTrust => exact ⟨false, false, true, by simp, by simp [classifyLoop, if_neg h]⟩
  | opMalformed => exact ⟨true, false, false, by simp, by simp [classifyLoop, if_neg h]⟩
  | opLineFull => exact ⟨true, false, false, by simp, by simp [classifyLoop, if_neg h]⟩
  | opSrcNoTrust added =>
      cases added with
      | false => exact ⟨true, false, false, by simp, by simp [classifyLoop, if_neg h]⟩
      | true => exact ⟨false, false, false, by simp, by simp [classifyLoop, if_neg h]⟩
  | opUnderfunded refilled =>
      cases refilled with
      | false => exact ⟨false, true, false, by simp, by simp [classifyLoop, if_neg h]⟩
      | true => exact ⟨false, false, false, by simp, by simp [classifyLoop, if_neg h]⟩
  | opOther => exact ⟨true, false, false, by simp, by simp [classifyLoop, if_neg h]⟩

/-- Every index emitted by the classification loop lies in `[i, len)`. -/
theorem classifyLoop_bounds (l : List OpOutcome) :
    ∀ (len i : Nat) (j : Nat),
    (j ∈ (classifyLoop l len i).1 ∨ j ∈ (classifyLoop l len i).2.1 ∨
      j ∈ (classifyLoop l len i).2.2) → i ≤ j ∧ j < len := by
  induction l with
  | nil => intro len i j h; simp [classifyLoop] at h
  | cons c rest ih =>
      intro len i j h
      by_cases hle : len ≤ i
      · have hskip : classifyLoop (c :: rest) len i = classifyLoop rest len (i + 1) := by
          cases c <;> simp [classifyLoop, if_pos hle]
        rw [hskip] at h
        have := ih len (i + 1) j h
        omega
      · obtain ⟨b1, b2, b3, _, hchar⟩ := classifyLoop_cons_char c rest len i hle
        rw [hchar] at h
        have hcase : j = i ∨ (j ∈ (classifyLoop rest len (i + 1)).1 ∨
            j ∈ (classifyLoop rest len (i + 1)).2.1 ∨
            j ∈ (classifyLoop rest len (i + 1)).2.2) := by
          rcases h with h | h | h
          · cases b1
            · exact Or.inr (Or.inl h)
            · rcases List.mem_cons.mp h with rfl | h'
              · exact Or.inl rfl
              · exact Or.inr (Or.inl h')
          · cases b2
            · exact Or.inr (Or.inr (Or.inl h))
            · rcases List.mem_cons.mp h with rfl | h'
              · exact Or.inl rfl
              · exact Or.inr (Or.inr (Or.inl h'))
          · cases b3
            · exact Or.inr (Or.inr (Or.inr h))
            · rcases List.mem_cons.mp h with rfl | h'
              · exact Or.inl rfl
              · exact Or.inr (Or.inr (Or.inr h'))
        rcases hcase with rfl | hrec
        · omega
        · have := ih len (i + 1) j hrec
          omega

/-- Each index is counted at most once over the three classifier outputs
together. -/
theorem classifyLoop_counts (l : List OpOutcome) :
    ∀ (len i : Nat) (j : Nat),
    (classifyLoop l len i).1.count j + (classifyLoop l len i).2.1.count j +
      (classifyLoop l len i).2.2.count j ≤ 1 := by
  induction l with
  | nil => intro len i j; simp [classifyLoop]
  | cons c rest ih =>
      intro len i j
      by_cases hle : len ≤ i
      · have hskip : classifyLoop (c :: rest) len i = classifyLoop rest len (i + 1) := by
          cases c <;> simp [classifyLoop, if_pos hle]
        rw [hskip]
        exact ih len (i + 1) j
      · obtain ⟨b1, b2, b3, hb, hchar⟩ := classifyLoop_cons_char c rest len i hle
        rw [hchar]
        have hrec := ih len (i + 1) j
        by_cases hji : j = i
        · subst hji
          have hz : ∀ m ∈ [(classifyLoop rest len (j + 1)).1,
              (classifyLoop rest len (j + 1)).2.1,
              (classifyLoop rest len (j + 1)).2.2], m.count j = 0 := by
            intro m hm
            rw [List.count_eq_zero]
            intro hc
            have hb' := classifyLoop_bounds rest len (j + 1) j
            simp only [List.mem_cons, List.not_mem_nil, or_false] at hm
            rcases hm with rfl | rfl | rfl
            · exact absurd (hb' (Or.inl hc)).1 (by omega)
            · exact absurd (hb' (Or.inr (Or.inl hc))).1 (by omega)
            · exact absurd (hb' (Or.inr (Or.inr hc))).1 (by omega)
          have h1 := hz (classifyLoop rest len (j + 1)).1 (by simp)
          have h2 := hz (classifyLoop rest len (j + 1)).2.1 (by simp)
          have h3 := hz (classifyLoop rest len (j + 1)).2.2 (by simp)
          cases b1 <;> cases b2 <;> cases b3 <;>
            (simp only [cond_true, cond_false, List.count_cons_self, h1, h2, h3] at hb ⊢ <;>
              omega)
        · have e1 : ∀ (t : List Nat), (i :: t).count j = t.count j := fun t =>
            List.count_cons_of_ne hji t
          cases b1 <;> cases b2 <;> cases b3 <;>
            (simp only [cond_true, cond_false, e1] <;> omega)

/-- Indices ruled `Invalid` by the spec's table: `op_malformed`,
`op_line_full`, a failed trust-line creation for `op_src_no_trust`, and any
unrecognized code. -/
def opInvalid : OpOutcome → Bool
  | .opMalformed => true
  | .opLineFull => true
  | .opSrcNoTrust added => !added
  | .opOther => true
  | _ => false

/-- Indices ruled `MoveToEnd` by the spec's table: `op_underfunded` whose
asset refill failed. -/
def opMoveToEnd : OpOutcome → Bool
  | .opUnderfunded refilled => !refilled
  | _ => false

/-- Indices ruled `ConvertToDeferredClaim` by the spec's table:
`op_no_trust`. -/
def opConvert : OpOutcome → Bool
  | .opNoTrust => true
  | _ => false

/-- The positions (counted from `i`) at which a per-operation predicate
holds — the spec's phrase "marks that index". -/
def specIdxFrom (p : OpOutcome → Bool) : List OpOutcome → Nat → List Nat
  | [], _ => []
  | c :: rest, i =>
      if p c then i :: specIdxFrom p rest (i + 1) else specIdxFrom p rest (i + 1)

/-- The code's single classification pass agrees with the three spec-side
index sets whenever the result codes do not outnumber the batch. -/
theorem classifyLoop_eq_spec (l : List OpOutcome) :
    ∀ (len i : Nat), i + l.length ≤ len →
    classifyLoop l len i =
      (specIdxFrom opInvalid l i, specIdxFrom opMoveToEnd l i, specIdxFrom opConvert l i) := by
  induction l with
  | nil => intro len i _; simp [classifyLoop, specIdxFrom]
  | cons c rest ih =>
      intro len i hlen
      have hi : ¬ len ≤ i := by simp only [List.length_cons] at hlen; omega
      have hrec := ih len (i + 1) (by simp only [List.length_cons] at hlen; omega)
      cases c with
      | opSuccess => simp [classifyLoop, if_neg hi, hrec, specIdxFrom, opInvalid, opMoveToEnd, opConvert]
      | opNoTrust => simp [classifyLoop, if_neg hi, hrec, specIdxFrom, opInvalid, opMoveToEnd, opConvert]
      | opMalformed => simp [classifyLoop, if_neg hi, hrec, specIdxFrom, opInvalid, opMoveToEnd, opConvert]
      | opLineFull => simp [classifyLoop, if_neg hi, hrec, specIdxFrom, opInvalid, opMoveToEnd, opConvert]
      | opSrcNoTrust added =>
          cases added <;>
            simp [classifyLoop, if_neg hi, hrec, specIdxFrom, opInvalid, opMoveToEnd, opConvert]
      | opUnderfunded refilled =>
          cases refilled <;>
            simp [classifyLoop, if_neg hi, hrec, specIdxFrom, opInvalid, opMoveToEnd, opConvert]
      | opOther => simp [classifyLoop, if_neg hi, hrec, specIdxFrom, opInvalid, opMoveToEnd, opConvert]

/-!
## Store and moveToEnd-pass lemmas
-/

theorem updateStore_same (st : Store) (oid : Nat) (f : TxData → TxData) :
    updateStore st oid f oid = f (st oid) := by
  simp [updateStore]

theorem updateStore_other (st : Store) (oid : Nat) (f : TxData → TxData)
    (x : Nat) (h : x ≠ oid) : updateStore st oid f x = st x := by
  simp [updateStore, h]

/-- The claimable-balance conversion fold changes only `ttype`. -/
theorem convertFold_fields (batch : List Nat) (conv : List Nat) :
    ∀ (st : Store) (oid : Nat),
    let st' := conv.foldl
      (fun acc i => updateStore acc (batch.getD i 0) (fun t => { t with ttype := 1 })) st
    (st' oid).movedToEnd = (st oid).movedToEnd ∧
    (st' oid).amount = (st oid).amount ∧
    (st' oid).destination = (st oid).destination ∧
    (st' oid).assetCode = (st oid).assetCode := by
  induction conv with
  | nil => intro st oid; exact ⟨rfl, rfl, rfl, rfl⟩
  | cons i rest ih =>
      intro st oid
      simp only [List.foldl_cons]
      have hrec := ih (updateStore st (batch.getD i 0) (fun t => { t with ttype := 1 })) oid
      have hbase : (updateStore st (batch.getD i 0) (fun t => { t with ttype := 1 }) oid).movedToEnd
            = (st oid).movedToEnd ∧
          (updateStore st (batch.getD i 0) (fun t => { t with ttype := 1 }) oid).amount
            = (st oid).amount ∧
          (updateStore st (batch.getD i 0) (fun t => { t with ttype := 1 }) oid).destination
            = (st oid).destination ∧
          (updateStore st (batch.getD i 0) (fun t => { t with ttype := 1 }) oid).assetCode
            = (st oid).assetCode := by
        by_cases hx : oid = batch.getD i 0
        · subst hx; rw [updateStore_same]
          exact ⟨rfl, rfl, rfl, rfl⟩
        · rw [updateStore_other st _ _ _ hx]
          exact ⟨rfl, rfl, rfl, rfl⟩
      exact ⟨hrec.1.trans hbase.1, hrec.2.1.trans hbase.2.1,
        hrec.2.2.1.trans hbase.2.2.1, hrec.2.2.2.trans hbase.2.2.2⟩

/-- Unfolding equation for the moveToEnd pass: already-flagged head. -/
theorem processMTE_cons_true (idx : Nat) (rest batch : List Nat) (st : Store)
    (left plog : List Nat) (h : (st (batch.getD idx 0)).movedToEnd = true) :
    processMTE (idx :: rest) batch st left plog =
      ((processMTE rest batch st left plog).1,
       (processMTE rest batch st left plog).2.1,
       (processMTE rest batch st left plog).2.2.1,
       idx :: (processMTE rest batch st left plog).2.2.2.1,
       (processMTE rest batch st left plog).2.2.2.2) := by
  simp only [processMTE]
  rw [if_pos h]

/-- Unfolding equation for the moveToEnd pass: fresh head (flag set, object
pushed to the tail). -/
theorem processMTE_cons_false (idx : Nat) (rest batch : List Nat) (st : Store)
    (left plog : List Nat) (h : (st (batch.getD idx 0)).movedToEnd = false) :
    processMTE (idx :: rest) batch st left plog =
      ((processMTE rest batch
          (updateStore st (batch.getD idx 0) (fun t => { t with movedToEnd := true }))
          (left ++ [batch.getD idx 0]) (plog ++ [batch.getD idx 0])).1,
       (processMTE rest batch
          (updateStore st (batch.getD idx 0) (fun t => { t with movedToEnd := true }))
          (left ++ [batch.getD idx 0]) (plog ++ [batch.getD idx 0])).2.1,
       idx :: (processMTE rest batch
          (updateStore st (batch.getD idx 0) (fun t => { t with movedToEnd := true }))
          (left ++ [batch.getD idx 0]) (plog ++ [batch.getD idx 0])).2.2.1,
       (processMTE rest batch
          (updateStore st (batch.getD idx 0) (fun t => { t with movedToEnd := true }))
          (left ++ [batch.getD idx 0]) (plog ++ [batch.getD idx 0])).2.2.2.1,
       (processMTE rest batch
          (updateStore st (batch.getD idx 0) (fun t => { t with movedToEnd := true }))
          (left ++ [batch.getD idx 0]) (plog ++ [batch.getD idx 0])).2.2.2.2) := by
  simp only [processMTE]
  rw [if_neg (by rw [h]; exact Bool.false_ne_true)]

/-- Structure of the moveToEnd pass: there is a list `np` of newly pushed
object ids such that `transactionsLeft` and the push log are extended by
exactly `np`; `np` is the image of `actualMoveToEnd` under the batch lookup;
both index outputs draw from the input (with multiplicity); the heap is
untouched outside `np`; the `movedToEnd` flag afterwards holds exactly on
previously flagged objects and `np`; and the other fields are preserved. -/
theorem processMTE_char (batch mte : List Nat) :
    ∀ (st : Store) (left plog : List Nat),
    ∃ np : List Nat,
      (processMTE mte batch st left plog).2.1 = left ++ np ∧
      (processMTE mte batch st left plog).2.2.2.2 = plog ++ np ∧
      np = (processMTE mte batch st left plog).2.2.1.map (fun i => batch.getD i 0) ∧
      (∀ i ∈ (processMTE mte batch st left plog).2.2.1, i ∈ mte) ∧
      (∀ i ∈ (processMTE mte batch st left plog).2.2.2.1, i ∈ mte) ∧
      (∀ j : Nat, (processMTE mte batch st left plog).2.2.1.count j +
        (processMTE mte batch st left plog).2.2.2.1.count j ≤ mte.count j) ∧
      (∀ oid, oid ∉ np → (processMTE mte batch st left plog).1 oid = st oid) ∧
      (∀ oid, (((processMTE mte batch st left plog).1 oid).movedToEnd = true ↔
        ((st oid).movedToEnd = true ∨ oid ∈ np))) ∧
      (∀ oid, ((processMTE mte batch st left plog).1 oid).ttype = (st oid).ttype ∧
        ((processMTE mte batch st left plog).1 oid).amount = (st oid).amount) := by
  induction mte with
  | nil =>
      intro st left plog
      exact ⟨[], by simp [processMTE], by simp [processMTE], by simp [processMTE],
        by simp [processMTE], by simp [processMTE], by simp [processMTE],
        fun _ _ => rfl, fun oid => by simp [processMTE], fun _ => ⟨rfl, rfl⟩⟩
  | cons idx rest ih =>
      intro st left plog
      cases hfl : (st (batch.getD idx 0)).movedToEnd with
      | true =>
          obtain ⟨np, h1, h2, h3, h4, h5, h6, h7, h8, h9⟩ := ih st left plog
          rw [processMTE_cons_true idx rest batch st left plog hfl]
          dsimp only
          refine ⟨np, h1, h2, h3,
            fun i hi => List.mem_cons_of_mem idx (h4 i hi), ?_, ?_, h7, h8, h9⟩
          · intro i hi
            rcases List.mem_cons.mp hi with rfl | hi'
            · exact List.mem_cons_self _ _
            · exact List.mem_cons_of_mem idx (h5 i hi')
          · intro j
            by_cases hj : j = idx
            · subst hj
              rw [List.count_cons_self, List.count_cons_self]
              have := h6 j
              omega
            · rw [List.count_cons_of_ne hj, List.count_cons_of_ne hj]
              exact h6 j
      | false =>
          obtain ⟨np, h1, h2, h3, h4, h5, h6, h7, h8, h9⟩ :=
            ih (updateStore st (batch.getD idx 0) (fun t => { t with movedToEnd := true }))
              (left ++ [batch.getD idx 0]) (plog ++ [batch.getD idx 0])
          rw [processMTE_cons_false idx rest batch st left plog hfl]
          dsimp only
          refine ⟨batch.getD idx 0 :: np, ?_, ?_, ?_, ?_,
            fun i hi => List.mem_cons_of_mem idx (h5 i hi), ?_, ?_, ?_, ?_⟩
          · rw [h1]; simp
          · rw [h2]; simp
          · simp only [List.map_cons]
            exact congrArg (batch.getD idx 0 :: ·) h3
          · intro i hi
            rcases List.mem_cons.mp hi with rfl | hi'
            · exact List.mem_cons_self _ _
            · exact List.mem_cons_of_mem idx (h4 i hi')
          · intro j
            by_cases hj : j = idx
            · subst hj
              rw [List.count_cons_self, List.count_cons_self]
              have := h6 j
              omega
            · rw [List.count_cons_of_ne hj, List.count_cons_of_ne hj]
              exact h6 j
          · intro x hx
            have hxne : x ≠ batch.getD idx 0 := fun hc => hx (hc ▸ List.mem_cons_self _ _)
            have hxnp : x ∉ np := fun hc => hx (List.mem_cons_of_mem _ hc)
            rw [h7 x hxnp, updateStore_other st _ _ _ hxne]
          · intro x
            rw [h8 x]
            by_cases hx : x = batch.getD idx 0
            · subst hx
              rw [updateStore_same]
              simp
            · rw [updateStore_other st _ _ _ hx]
              simp only [List.mem_cons]
              constructor
              · rintro (hf | hm)
                · exact Or.inl hf
                · exact Or.inr (Or.inr hm)
              · rintro (hf | (hc | hm))
                · exact Or.inl hf
                · exact absurd hc hx
                · exact Or.inr hm
          · intro x
            have hb := h9 x
            by_cases hx : x = batch.getD idx 0
            · subst hx
              rw [hb.1, hb.2, updateStore_same]
              exact ⟨rfl, rfl⟩
            · rw [hb.1, hb.2, updateStore_other st _ _ _ hx]
              exact ⟨rfl, rfl⟩

/-!
## Plan application, restructured for analysis

`planApply` is the catch-block plan application specialised to the only
shape `handleSendError` ever returns with `retry = false`: both index
arrays present and `fatal` unset.  `planStep_eq_planApply` proves it equal
to the source-shaped `planStep` on that shape. -/

def planApply (inv mte : List Nat) (st : Store) (s : St) : StepRes :=
  let p := processMTE mte s.batch st s.left s.pushedOids
  let st2 := p.1
  let left2 := p.2.1
  let actual := p.2.2.1
  let invAll := inv ++ p.2.2.2.1
  let plog := p.2.2.2.2
  let toRemove := (invAll ++ actual).dedup
  if toRemove.isEmpty then
    let o := s.opRetry + 1
    if 5 ≤ o then
      .outer { s with
        store := st2
        left := left2.drop s.origSize
        batch := []
        opRetry := o
        pushedOids := plog
        droppedOids := s.droppedOids ++ left2.take s.origSize }
    else
      .inner { s with
        store := st2
        left := left2
        opRetry := o
        pushedOids := plog
        sleeps := s.sleeps ++ [1] }
  else
    let sorted := toRemove.insertionSort (fun a b => b ≤ a)
    let batch' := sorted.foldl (fun b i => b.eraseIdx i) s.batch
    let left' := sorted.foldl (fun l i => l.eraseIdx i) left2
    let s' : St :=
      { s with
        store := st2
        left := left'
        batch := batch'
        opRetry := 0
        pushedOids := plog
        invalidOids := s.invalidOids ++ invAll.map (fun i => s.batch.getD i 0) }
    if batch'.isEmpty then .outer { s' with batch := [] } else .inner s'

theorem planStep_eq_planApply (inv mte : List Nat) (st : Store) (s : St) :
    planStep { retry := false, invalidIndices := some inv,
               moveToEndIndices := some mte } st s = planApply inv mte st s := by
  by_cases hmte : mte.isEmpty
  · have hmte' : mte = [] := List.isEmpty_iff.mp hmte
    subst hmte'
    simp [planStep, planApply, processMTE]
  · simp only [planStep, planApply, if_neg hmte, hmte]
    by_cases halr : (processMTE mte s.batch st s.left s.pushedOids).2.2.2.1.isEmpty
    · have halr' : (processMTE mte s.batch st s.left s.pushedOids).2.2.2.1 = [] :=
        List.isEmpty_iff.mp halr
      simp [halr', halr]
    · simp [halr]

/-- `handleSendError` never sets `fatal`. -/
theorem handleSendError_fatal (err : GErr) (batch : List Nat) (st : Store) :
    (handleSendError err batch st).res.fatal = false := by
  cases err <;> rfl

/-- The five transaction-level conditions return `{retry: true}` with the
heap untouched; only `tx_insufficient_balance` triggers the gas refill. -/
theorem handleSendError_retry_cases (batch : List Nat) (st : Store) :
    handleSendError .transport5xx batch st = ⟨{ retry := true }, st, false⟩ ∧
    handleSendError .parseFail batch st = ⟨{ retry := true }, st, false⟩ ∧
    handleSendError .noResultCodes batch st = ⟨{ retry := true }, st, false⟩ ∧
    handleSendError .txInsufficientBalance batch st = ⟨{ retry := true }, st, true⟩ ∧
    handleSendError .opsNotArray batch st = ⟨{ retry := true }, st, false⟩ := by
  exact ⟨rfl, rfl, rfl, rfl, rfl⟩

/-- Unfolding of the per-operation branch of `handleSendError`. -/
theorem handleSendError_opResults (l : List OpOutcome) (batch : List Nat) (st : Store) :
    handleSendError (.opResults l) batch st =
      ⟨{ retry := false,
         invalidIndices := some (classifyLoop l batch.length 0).1,
         moveToEndIndices := some (classifyLoop l batch.length 0).2.1 },
       (classifyLoop l batch.length 0).2.2.foldl
         (fun acc i => updateStore acc (batch.getD i 0) (fun t => { t with ttype := 1 })) st,
       false⟩ := rfl

/-- The classifier's heap mutation (claimable conversions) never touches the
`movedToEnd` flag or the amount. -/
theorem handleSendError_store_fields (err : GErr) (batch : List Nat) (st : Store) (oid : Nat) :
    ((handleSendError err batch st).store oid).movedToEnd = (st oid).movedToEnd ∧
    ((handleSendError err batch st).store oid).amount = (st oid).amount := by
  cases err with
  | opResults l =>
      rw [handleSendError_opResults]
      have := convertFold_fields batch (classifyLoop l batch.length 0).2.2 st oid
      exact ⟨this.1, this.2.1⟩
  | transport5xx => exact ⟨rfl, rfl⟩
  | parseFail => exact ⟨rfl, rfl⟩
  | noResultCodes => exact ⟨rfl, rfl⟩
  | txInsufficientBalance => exact ⟨rfl, rfl⟩
  | opsNotArray => exact ⟨rfl, rfl⟩

/-- The catch block on a transient-class error. -/
theorem catchStep_retry (err : GErr) (s : St)
    (h : (handleSendError err s.batch s.store).res.retry = true) :
    catchStep err s = transientStep (handleSendError err s.batch s.store).store s := by
  simp [catchStep, h]

/-- The catch block on per-operation result codes is plan application of the
classifier's index sets over the conversion-updated heap. -/
theorem catchStep_opResults (l : List OpOutcome) (s : St) :
    catchStep (.opResults l) s =
      planApply (classifyLoop l s.batch.length 0).1 (classifyLoop l s.batch.length 0).2.1
        ((handleSendError (.opResults l) s.batch s.store).store) s := by
  rw [catchStep]
  rw [handleSendError_opResults]
  exact planStep_eq_planApply _ _ _ _

/-- Unfolding of `step` on a successful whole-batch submission. -/
theorem step_success_none (s : St)
    (h : s.batch.findIdx? (fun oid => decide (SUPPLY_REFILL_LIMIT ≤ (s.store oid).amount)) = none) :
    step .success s = batchSuccess { s with attempts := s.attempts ++ [s.batch] } := by
  simp [step, h]

/-- Unfolding of `step` on a successful oversize single-op submission. -/
theorem step_success_some (s : St) (li : Nat)
    (h : s.batch.findIdx? (fun oid => decide (SUPPLY_REFILL_LIMIT ≤ (s.store oid).amount)) = some li) :
    step .success s = largeSuccess li { s with attempts := s.attempts ++ [[s.batch.getD li 0]] } := by
  simp [step, h]

/-- Unfolding of `step` on a thrown gateway error: regardless of the
oversize check, the catch block runs on the full current batch. -/
theorem step_failure (err : GErr) (s : St) :
    ∃ a : List Nat,
      step (.failure err) s = catchStep err { s with attempts := s.attempts ++ [a] } := by
  rw [step]
  cases h : s.batch.findIdx? (fun oid => decide (SUPPLY_REFILL_LIMIT ≤ (s.store oid).amount)) with
  | none => exact ⟨s.batch, rfl⟩
  | some li => exact ⟨[s.batch.getD li 0], rfl⟩

/-!
## The run-induction principle and the sender invariants
-/

/-- Induction over the interleaved loops of `sendTransactions`: `Pg` is the
in-batch invariant, `Pr` the between-batch invariant, `Q` the property of
the final result. -/
theorem go_ind {Pg Pr : St → Prop} {Q : RunResult → Prop}
    (hstart : ∀ s, Pr s → s.left ≠ [] → Pg (startBatch s))
    (hinner : ∀ e s s', Pg s → step e s = .inner s' → Pg s')
    (houter : ∀ e s s', Pg s → step e s = .outer s' → Pr s')
    (hdone : ∀ e s r, Pg s → step e s = .done r → Q r)
    (hoot : ∀ s, Pg s → Q (mkResult .outOfTrace s))
    (hok : ∀ s, Pr s → s.left = [] → Q (mkResult .ok s)) :
    ∀ (t : List GatewayEvent) (s : St), Pg s → Q (go t s) := by
  intro t
  induction t with
  | nil => intro s hs; exact hoot s hs
  | cons e rest ih =>
      intro s hs
      rw [go]
      cases hstep : step e s with
      | done r => exact hdone e s r hs hstep
      | inner s' => exact ih s' (hinner e s s' hs hstep)
      | outer s' =>
          dsimp only
          have hr := houter e s s' hs hstep
          by_cases hl : s'.left.isEmpty
          · rw [if_pos hl]
            exact hok s' hr (List.isEmpty_iff.mp hl)
          · rw [if_neg hl]
            exact ih (startBatch s')
              (hstart s' hr (fun hc => hl (by rw [hc]; rfl)))

/-- Same principle lifted to `run`. -/
theorem run_ind {Pg Pr : St → Prop} {Q : RunResult → Prop}
    (hstart : ∀ s, Pr s → s.left ≠ [] → Pg (startBatch s))
    (hinner : ∀ e s s', Pg s → step e s = .inner s' → Pg s')
    (houter : ∀ e s s', Pg s → step e s = .outer s' → Pr s')
    (hdone : ∀ e s r, Pg s → step e s = .done r → Q r)
    (hoot : ∀ s, Pg s → Q (mkResult .outOfTrace s))
    (hok : ∀ s, Pr s → s.left = [] → Q (mkResult .ok s)) :
    ∀ (t : List GatewayEvent) (s : St), Pr s → Q (run t s) := by
  intro t s hs
  rw [run]
  by_cases hl : s.left.isEmpty
  · rw [if_pos hl]
    exact hok s hs (List.isEmpty_iff.mp hl)
  · rw [if_neg hl]
    exact go_ind hstart hinner houter hdone hoot hok t (startBatch s)
      (hstart s hs (fun hc => hl (by rw [hc]; rfl)))

/-- Well-formedness of a sender state: `currentBatch` is a prefix of
`transactionsLeft` (the slice relationship the index bookkeeping relies
on), and `transactionsLeft` holds pairwise distinct objects. -/
def WF (s : St) : Prop := s.batch <+: s.left ∧ s.left.Nodup

/-- Accounting: every admitted object is still pending or has been logged as
landed, invalid, or dropped. -/
def Accounted (L0 : List Nat) (s : St) : Prop :=
  ∀ oid ∈ L0, oid ∈ s.left ∨ oid ∈ s.landedOids ∨ oid ∈ s.invalidOids ∨ oid ∈ s.droppedOids

/-- Separation: a pending object has not been logged as settled. -/
def Disj (s : St) : Prop :=
  ∀ oid ∈ s.left, oid ∉ s.landedOids ∧ oid ∉ s.invalidOids ∧ oid ∉ s.droppedOids

/-- Pending objects come from the admitted set. -/
def SubL (L0 : List Nat) (s : St) : Prop := ∀ oid ∈ s.left, oid ∈ L0

/-- The combined sender invariant. -/
def SenderInv (L0 : List Nat) (s : St) : Prop :=
  WF s ∧ Accounted L0 s ∧ Disj s ∧ SubL L0 s

instance : IsTotal Nat (fun a b => b ≤ a) := ⟨fun a b => le_total b a⟩

instance : IsTrans Nat (fun a b => b ≤ a) := ⟨fun _ _ _ h1 h2 => le_trans h2 h1⟩

theorem eraseIdx_eq_keepIdx (l : List α) (i : Nat) : l.eraseIdx i = keepIdx l [i] 0 := by
  have := foldl_eraseIdx_eq_keepIdx [i] l (by simp)
  simpa using this

theorem left_eq_batch_append {batch left : List Nat} (hpre : batch <+: left) :
    left = batch ++ left.drop batch.length := by
  obtain ⟨t, ht⟩ := hpre
  rw [← ht, List.drop_left]

/-- The sender invariant only inspects `left`, `batch` and the three
settlement logs. -/
theorem senderInv_congr (L0 : List Nat) (s s' : St) (hI : SenderInv L0 s)
    (hleft : s'.left = s.left) (hbatch : s'.batch = s.batch)
    (hland : s'.landedOids = s.landedOids) (hinv : s'.invalidOids = s.invalidOids)
    (hdrop : s'.droppedOids = s.droppedOids) : SenderInv L0 s' := by
  obtain ⟨⟨hpre, hnd⟩, hacc, hdisj, hsub⟩ := hI
  refine ⟨⟨?_, ?_⟩, ?_, ?_, ?_⟩
  · rw [hleft, hbatch]; exact hpre
  · rw [hleft]; exact hnd
  · intro oid hoid
    rcases hacc oid hoid with h | h | h | h
    · exact Or.inl (by rw [hleft]; exact h)
    · exact Or.inr (Or.inl (by rw [hland]; exact h))
    · exact Or.inr (Or.inr (Or.inl (by rw [hinv]; exact h)))
    · exact Or.inr (Or.inr (Or.inr (by rw [hdrop]; exact h)))
  · intro oid hoid
    rw [hleft] at hoid
    have := hdisj oid hoid
    rw [hland, hinv, hdrop]
    exact this
  · intro oid hoid
    rw [hleft] at hoid
    exact hsub oid hoid

/-- A transient retry leaves the invariant-relevant state untouched. -/
theorem transientStep_pres (L0 : List Nat) (st : Store) (s s' : St)
    (hI : SenderInv L0 s)
    (h : transientStep st s = .inner s' ∨ transientStep st s = .outer s') :
    SenderInv L0 s' := by
  rw [transientStep] at h
  by_cases hb : 3 ≤ s.badResponseRetry + 1
  · rw [if_pos hb] at h
    rcases h with h | h <;> cases h
  · rw [if_neg hb] at h
    rcases h with h | h
    · cases h
      exact senderInv_congr L0 s _ hI rfl rfl rfl rfl rfl
    · cases h

/-- Outer-loop batch setup preserves the invariant (the new batch is a
leading slice). -/
theorem startBatch_pres (L0 : List Nat) (s : St) (hI : SenderInv L0 s) :
    SenderInv L0 (startBatch s) := by
  obtain ⟨⟨_, hnd⟩, hacc, hdisj, hsub⟩ := hI
  exact ⟨⟨List.take_prefix _ _, hnd⟩, hacc, hdisj, hsub⟩

/-- A successful whole-batch submission preserves the invariant: the dropped
prefix is exactly the batch, which is logged as landed. -/
theorem batchSuccess_pres (L0 : List Nat) (s s' : St) (hI : SenderInv L0 s)
    (h : batchSuccess s = .outer s') : SenderInv L0 s' := by
  obtain ⟨⟨hpre, hnd⟩, hacc, hdisj, hsub⟩ := hI
  cases h
  have hsplit := left_eq_batch_append hpre
  have hndsplit : (s.batch ++ s.left.drop s.batch.length).Nodup := by rw [← hsplit]; exact hnd
  have hdisjoint := (List.nodup_append.mp hndsplit).2.2
  refine ⟨⟨?_, ?_⟩, ?_, ?_, ?_⟩
  · exact List.nil_prefix
  · exact (List.drop_sublist _ _).nodup hnd
  · intro oid hoid
    rcases hacc oid hoid with h | h | h | h
    · rw [hsplit] at h
      rcases List.mem_append.mp h with h' | h'
      · exact Or.inr (Or.inl (List.mem_append_right _ h'))
      · exact Or.inl h'
    · exact Or.inr (Or.inl (List.mem_append_left _ h))
    · exact Or.inr (Or.inr (Or.inl h))
    · exact Or.inr (Or.inr (Or.inr h))
  · intro oid hoid
    have hmem : oid ∈ s.left := (List.drop_sublist _ _).mem hoid
    have hold := hdisj oid hmem
    refine ⟨?_, hold.2.1, hold.2.2⟩
    intro hc
    rcases List.mem_append.mp hc with h' | h'
    · exact hold.1 h'
    · exact hdisjoint h' hoid
  · intro oid hoid
    exact hsub oid ((List.drop_sublist _ _).mem hoid)

/-- The oversize-split success branch preserves the invariant: under the
prefix/nodup discipline, identity lookup in `transactionsLeft` finds the
same position, so the original is spliced out of both arrays coherently. -/
theorem largeSuccess_pres (L0 : List Nat) (li : Nat) (s s' : St)
    (hI : SenderInv L0 s) (hli : li < s.batch.length)
    (h : largeSuccess li s = .inner s' ∨ largeSuccess li s = .outer s') :
    SenderInv L0 s' := by
  obtain ⟨⟨hpre, hnd⟩, hacc, hdisj, hsub⟩ := hI
  have hlen : s.batch.length ≤ s.left.length := hpre.length_le
  have hlil : li < s.left.length := lt_of_lt_of_le hli hlen
  have hoid : s.batch.getD li 0 = s.left.get ⟨li, hlil⟩ := by
    rw [prefix_getD hpre 0 hli, getD_eq_get s.left 0 li hlil]
  have hfind : List.findIdx? (fun oid => oid == s.batch.getD li 0) s.left 0 = some li := by
    rw [hoid]
    exact nodup_findIdx_beq s.left li hnd hlil
  have hkeepL : s.left.eraseIdx li = keepIdx s.left [li] 0 := eraseIdx_eq_keepIdx s.left li
  have hkeepB : s.batch.eraseIdx li = keepIdx s.batch [li] 0 := eraseIdx_eq_keepIdx s.batch li
  have hsplit := left_eq_batch_append hpre
  -- prefix of the shrunken batch in the shrunken remaining list
  have happend : keepIdx s.left [li] 0 =
      keepIdx s.batch [li] 0 ++ s.left.drop s.batch.length := by
    conv_lhs => rw [hsplit]
    exact keepIdx_append s.batch (s.left.drop s.batch.length) [li] 0
      (by intro j hj; simp at hj; omega)
  have hpre' : s.batch.eraseIdx li <+: s.left.eraseIdx li := by
    rw [hkeepL, hkeepB, happend]
    exact List.prefix_append _ _
  have hnd' : (s.left.eraseIdx li).Nodup := by
    rw [hkeepL]
    exact (keepIdx_sublist _ _ _).nodup hnd
  have hsubK : List.Sublist (s.left.eraseIdx li) s.left := by
    rw [hkeepL]; exact keepIdx_sublist _ _ _
  have hnotin : s.batch.getD li 0 ∉ s.left.eraseIdx li := by
    rw [hkeepL, hoid]
    exact not_mem_keepIdx_of_bad s.left [li] 0 li hnd hlil (by simp)
  have hAcc' : ∀ oid ∈ L0, oid ∈ s.left.eraseIdx li ∨
      oid ∈ s.landedOids ++ [s.batch.getD li 0] ∨ oid ∈ s.invalidOids ∨
      oid ∈ s.droppedOids := by
    intro oid hoid
    rcases hacc oid hoid with hmem | hmem | hmem | hmem
    · obtain ⟨⟨n, hn⟩, hget⟩ := List.mem_iff_get.mp hmem
      by_cases hnli : n = li
      · subst hnli
        refine Or.inr (Or.inl (List.mem_append_right _ ?_))
        rw [hoid]
        simp only [List.mem_singleton]
        exact hget.symm
      · refine Or.inl ?_
        rw [hkeepL, ← hget]
        exact mem_keepIdx_of_not_bad s.left [li] 0 n hn (by simp [hnli])
    · exact Or.inr (Or.inl (List.mem_append_left _ hmem))
    · exact Or.inr (Or.inr (Or.inl hmem))
    · exact Or.inr (Or.inr (Or.inr hmem))
  have hDisj' : ∀ oid ∈ s.left.eraseIdx li,
      oid ∉ s.landedOids ++ [s.batch.getD li 0] ∧ oid ∉ s.invalidOids ∧
      oid ∉ s.droppedOids := by
    intro oid hmem
    have hold := hdisj oid (hsubK.mem hmem)
    refine ⟨?_, hold.2.1, hold.2.2⟩
    intro hc
    rcases List.mem_append.mp hc with hc' | hc'
    · exact hold.1 hc'
    · rw [List.mem_singleton] at hc'
      subst hc'
      exact hnotin hmem
  have hSub' : ∀ oid ∈ s.left.eraseIdx li, oid ∈ L0 :=
    fun oid hmem => hsub oid (hsubK.mem hmem)
  rcases h with h | h
  · simp only [largeSuccess, hfind] at h
    by_cases hbe : (s.batch.eraseIdx li).isEmpty
    · rw [if_pos hbe] at h
      cases h
    · rw [if_neg hbe] at h
      cases h
      exact ⟨⟨hpre', hnd'⟩, hAcc', hDisj', hSub'⟩
  · simp only [largeSuccess, hfind] at h
    by_cases hbe : (s.batch.eraseIdx li).isEmpty
    · rw [if_pos hbe] at h
      cases h
      exact ⟨⟨List.nil_prefix, hnd'⟩, hAcc', hDisj', hSub'⟩
    · rw [if_neg hbe] at h
      cases h

/-- Plan application preserves the invariant: removed indices are below the
batch length, each index is classified at most once, and requeued objects
reappear at the tail exactly when their prefix occurrence is spliced out. -/
theorem planApply_pres (L0 : List Nat) (inv mte : List Nat) (st : Store) (s s' : St)
    (hI : SenderInv L0 s)
    (hinv_lt : ∀ j ∈ inv, j < s.batch.length)
    (hmte_lt : ∀ j ∈ mte, j < s.batch.length)
    (hmte_nd : mte.Nodup)
    (hid : ∀ j ∈ inv, j ∉ mte)
    (h : planApply inv mte st s = .inner s' ∨ planApply inv mte st s = .outer s') :
    SenderInv L0 s' := by
  obtain ⟨⟨hpre, hnd⟩, hacc, hdisjI, hsub⟩ := hI
  obtain ⟨np, h1, h2, h3, h4, h5, h6, h7, h8, h9⟩ :=
    processMTE_char s.batch mte st s.left s.pushedOids
  have hlen : s.batch.length ≤ s.left.length := hpre.length_le
  have hndb : s.batch.Nodup := hpre.sublist.nodup hnd
  have hsplit := left_eq_batch_append hpre
  have halr_lt : ∀ j ∈ (processMTE mte s.batch st s.left s.pushedOids).2.2.2.1,
      j < s.batch.length := fun j hj => hmte_lt j (h5 j hj)
  have hact_lt : ∀ j ∈ (processMTE mte s.batch st s.left s.pushedOids).2.2.1,
      j < s.batch.length := fun j hj => hmte_lt j (h4 j hj)
  by_cases hemp :
      (((inv ++ (processMTE mte s.batch st s.left s.pushedOids).2.2.2.1) ++
        (processMTE mte s.batch st s.left s.pushedOids).2.2.1).dedup).isEmpty
  · -- nothing to remove: the op-retry budget branch
    have hnil : (inv ++ (processMTE mte s.batch st s.left s.pushedOids).2.2.2.1) ++
        (processMTE mte s.batch st s.left s.pushedOids).2.2.1 = [] :=
      (List.dedup_eq_nil _).mp (List.isEmpty_iff.mp hemp)
    have hact_nil : (processMTE mte s.batch st s.left s.pushedOids).2.2.1 = [] := by
      rcases List.append_eq_nil.mp hnil with ⟨_, hr⟩
      exact hr
    have hnp_nil : np = [] := by rw [h3, hact_nil]; rfl
    have hleft2 : (processMTE mte s.batch st s.left s.pushedOids).2.1 = s.left := by
      rw [h1, hnp_nil, List.append_nil]
    simp only [planApply] at h
    rw [if_pos hemp] at h
    by_cases hbud : 5 ≤ s.opRetry + 1
    · rw [if_pos hbud] at h
      rcases h with h | h
      · cases h
      · cases h
        have hndsplit : (s.left.take s.origSize ++ s.left.drop s.origSize).Nodup := by
          rw [List.take_append_drop]; exact hnd
        have hdisjoint := (List.nodup_append.mp hndsplit).2.2
        refine ⟨⟨List.nil_prefix, ?_⟩, ?_, ?_, ?_⟩
        · rw [hleft2]
          exact (List.drop_sublist _ _).nodup hnd
        · intro oid hoid
          rcases hacc oid hoid with hm | hm | hm | hm
          · rw [← List.take_append_drop s.origSize s.left] at hm
            rcases List.mem_append.mp hm with hm' | hm'
            · refine Or.inr (Or.inr (Or.inr ?_))
              rw [hleft2]
              exact List.mem_append_right _ hm'
            · refine Or.inl ?_
              rw [hleft2]
              exact hm'
          · exact Or.inr (Or.inl hm)
          · exact Or.inr (Or.inr (Or.inl hm))
          · exact Or.inr (Or.inr (Or.inr (List.mem_append_left _ hm)))
        · intro oid hoid
          rw [hleft2] at hoid
          have hmem : oid ∈ s.left := (List.drop_sublist _ _).mem hoid
          have hold := hdisjI oid hmem
          refine ⟨hold.1, hold.2.1, ?_⟩
          rw [hleft2]
          intro hc
          rcases List.mem_append.mp hc with hc' | hc'
          · exact hold.2.2 hc'
          · exact hdisjoint hc' hoid
        · intro oid hoid
          rw [hleft2] at hoid
          exact hsub oid ((List.drop_sublist _ _).mem hoid)
    · rw [if_neg hbud] at h
      rcases h with h | h
      · cases h
        refine ⟨⟨?_, ?_⟩, ?_, ?_, ?_⟩
        · show s.batch <+: (processMTE mte s.batch st s.left s.pushedOids).2.1
          rw [hleft2]; exact hpre
        · show ((processMTE mte s.batch st s.left s.pushedOids).2.1).Nodup
          rw [hleft2]; exact hnd
        · intro oid hoid
          rcases hacc oid hoid with hm | hm | hm | hm
          · exact Or.inl (by rw [hleft2]; exact hm)
          · exact Or.inr (Or.inl hm)
          · exact Or.inr (Or.inr (Or.inl hm))
          · exact Or.inr (Or.inr (Or.inr hm))
        · intro oid hoid
          rw [hleft2] at hoid
          exact hdisjI oid hoid
        · intro oid hoid
          rw [hleft2] at hoid
          exact hsub oid hoid
      · cases h
  · -- indices to remove: splice them out of both arrays (descending order)
    rcases hPeq : processMTE mte s.batch st s.left s.pushedOids with ⟨st2, left2, act, alr, plog⟩
    simp only [hPeq] at h1 h2 h3 h4 h5 h6 hemp h
    have hact_lt' : ∀ j ∈ act, j < s.batch.length := fun j hj => hmte_lt j (h4 j hj)
    have halr_lt' : ∀ j ∈ alr, j < s.batch.length := fun j hj => hmte_lt j (h5 j hj)
    have hmem_toR : ∀ j, j ∈ ((inv ++ alr) ++ act).dedup ↔ ((j ∈ inv ∨ j ∈ alr) ∨ j ∈ act) := by
      intro j
      rw [List.mem_dedup, List.mem_append, List.mem_append]
    have hperm := List.perm_insertionSort (fun a b => b ≤ a) ((inv ++ alr) ++ act).dedup
    have hmem_sorted : ∀ j,
        j ∈ (((inv ++ alr) ++ act).dedup).insertionSort (fun a b => b ≤ a) ↔
        ((j ∈ inv ∨ j ∈ alr) ∨ j ∈ act) :=
      fun j => (hperm.mem_iff).trans (hmem_toR j)
    have hnd_sorted : ((((inv ++ alr) ++ act).dedup).insertionSort (fun a b => b ≤ a)).Nodup :=
      (hperm.nodup_iff).mpr (List.nodup_dedup _)
    have hsorted : List.Sorted (fun a b => b ≤ a)
        ((((inv ++ alr) ++ act).dedup).insertionSort (fun a b => b ≤ a)) :=
      List.sorted_insertionSort _ _
    have hdesc : ((((inv ++ alr) ++ act).dedup).insertionSort (fun a b => b ≤ a)).Pairwise
        (fun a b => b < a) := by
      have hand := List.Pairwise.and hsorted hnd_sorted
      exact hand.imp (fun hab => lt_of_le_of_ne hab.1 (Ne.symm hab.2))
    have hbound_sorted : ∀ j ∈ (((inv ++ alr) ++ act).dedup).insertionSort (fun a b => b ≤ a),
        j < s.batch.length := by
      intro j hj
      rcases (hmem_sorted j).mp hj with (hj' | hj') | hj'
      · exact hinv_lt j hj'
      · exact halr_lt' j hj'
      · exact hact_lt' j hj'
    have hbatchfold :
        List.foldl (fun b i => b.eraseIdx i) s.batch
          ((((inv ++ alr) ++ act).dedup).insertionSort (fun a b => b ≤ a)) =
        keepIdx s.batch ((((inv ++ alr) ++ act).dedup).insertionSort (fun a b => b ≤ a)) 0 :=
      foldl_eraseIdx_eq_keepIdx _ s.batch hdesc
    have hleftfold :
        List.foldl (fun l i => l.eraseIdx i) left2
          ((((inv ++ alr) ++ act).dedup).insertionSort (fun a b => b ≤ a)) =
        keepIdx s.left ((((inv ++ alr) ++ act).dedup).insertionSort (fun a b => b ≤ a)) 0 ++ np := by
      rw [h1, foldl_eraseIdx_eq_keepIdx _ _ hdesc]
      exact keepIdx_append s.left np _ 0
        (fun j hj => by have h1' := hbound_sorted j hj; omega)
    have hprefKeep :
        keepIdx s.left ((((inv ++ alr) ++ act).dedup).insertionSort (fun a b => b ≤ a)) 0 =
        keepIdx s.batch ((((inv ++ alr) ++ act).dedup).insertionSort (fun a b => b ≤ a)) 0 ++
          s.left.drop s.batch.length := by
      conv_lhs => rw [hsplit]
      exact keepIdx_append _ _ _ 0 (fun j hj => by have := hbound_sorted j hj; omega)
    have hval : ∀ j, j < s.batch.length → ∀ (hj : j < s.left.length),
        s.batch.getD j 0 = s.left.get ⟨j, hj⟩ := by
      intro j hjb hj
      rw [prefix_getD hpre 0 hjb, getD_eq_get s.left 0 j hj]
    have hact_nd : act.Nodup := by
      rw [List.nodup_iff_count_le_one]
      intro a
      have h6' := h6 a
      have hm : mte.count a ≤ 1 := List.nodup_iff_count_le_one.mp hmte_nd a
      omega
    have hnp_nd : np.Nodup := by
      rw [h3]
      refine List.Nodup.map_on ?_ hact_nd
      intro x hx y hy hxy
      exact getD_inj_of_nodup s.batch 0 hndb (hact_lt' x hx) (hact_lt' y hy) hxy
    have hnp_mem : ∀ x ∈ np, ∃ j, j ∈ act ∧ j < s.batch.length ∧ x = s.batch.getD j 0 := by
      intro x hx
      rw [h3] at hx
      obtain ⟨j, hj, rfl⟩ := List.mem_map.mp hx
      exact ⟨j, hj, hact_lt' j hj, rfl⟩
    have hnp_in_left : ∀ x ∈ np, x ∈ s.left := by
      intro x hx
      obtain ⟨j, hjact, hjlt, rfl⟩ := hnp_mem x hx
      have hjl : j < s.left.length := lt_of_lt_of_le hjlt hlen
      rw [hval j hjlt hjl]
      exact s.left.get_mem j hjl
    have hnp_not_keep : ∀ x ∈ np,
        x ∉ keepIdx s.left ((((inv ++ alr) ++ act).dedup).insertionSort (fun a b => b ≤ a)) 0 := by
      intro x hx
      obtain ⟨j, hjact, hjlt, rfl⟩ := hnp_mem x hx
      have hjs : j ∈ (((inv ++ alr) ++ act).dedup).insertionSort (fun a b => b ≤ a) :=
        (hmem_sorted j).mpr (Or.inr hjact)
      have hjl : j < s.left.length := lt_of_lt_of_le hjlt hlen
      rw [hval j hjlt hjl]
      exact not_mem_keepIdx_of_bad s.left _ 0 j hnd hjl (by simpa using hjs)
    have hkeep_sub : List.Sublist
        (keepIdx s.left ((((inv ++ alr) ++ act).dedup).insertionSort (fun a b => b ≤ a)) 0)
        s.left := keepIdx_sublist _ _ _
    have hinvmap_not_keep : ∀ x ∈ (inv ++ alr).map (fun i => s.batch.getD i 0),
        x ∉ keepIdx s.left ((((inv ++ alr) ++ act).dedup).insertionSort (fun a b => b ≤ a)) 0 := by
      intro x hx
      obtain ⟨j, hj, rfl⟩ := List.mem_map.mp hx
      have hjb : j < s.batch.length := by
        rcases List.mem_append.mp hj with hj' | hj'
        · exact hinv_lt j hj'
        · exact halr_lt' j hj'
      have hjs : j ∈ (((inv ++ alr) ++ act).dedup).insertionSort (fun a b => b ≤ a) := by
        refine (hmem_sorted j).mpr (Or.inl ?_)
        rcases List.mem_append.mp hj with hj' | hj'
        · exact Or.inl hj'
        · exact Or.inr hj'
      have hjl : j < s.left.length := lt_of_lt_of_le hjb hlen
      rw [hval j hjb hjl]
      exact not_mem_keepIdx_of_bad s.left _ 0 j hnd hjl (by simpa using hjs)
    have hnp_not_invmap : ∀ x ∈ np, x ∉ (inv ++ alr).map (fun i => s.batch.getD i 0) := by
      intro x hx hc
      obtain ⟨j, hjact, hjlt, heqx⟩ := hnp_mem x hx
      obtain ⟨j', hj', heq'⟩ := List.mem_map.mp hc
      have hj'b : j' < s.batch.length := by
        rcases List.mem_append.mp hj' with hh | hh
        · exact hinv_lt j' hh
        · exact halr_lt' j' hh
      have hjj : j' = j := getD_inj_of_nodup s.batch 0 hndb hj'b hjlt (heq'.trans heqx)
      subst hjj
      rcases List.mem_append.mp hj' with hh | hh
      · exact hid j' hh (h4 j' hjact)
      · have hc1 : 0 < act.count j' := List.count_pos_iff.mpr hjact
        have hc2 : 0 < alr.count j' := List.count_pos_iff.mpr hh
        have h6' := h6 j'
        have hm : mte.count j' ≤ 1 := List.nodup_iff_count_le_one.mp hmte_nd j'
        omega
    -- the four invariant components for the post-removal state
    have hWF' : (keepIdx s.left ((((inv ++ alr) ++ act).dedup).insertionSort (fun a b => b ≤ a)) 0
        ++ np).Nodup := by
      rw [List.nodup_append]
      exact ⟨hkeep_sub.nodup hnd, hnp_nd, fun a ha hb => hnp_not_keep a hb ha⟩
    have hAcc' : ∀ oid ∈ L0,
        oid ∈ keepIdx s.left ((((inv ++ alr) ++ act).dedup).insertionSort (fun a b => b ≤ a)) 0
            ++ np ∨
        oid ∈ s.landedOids ∨
        oid ∈ s.invalidOids ++ (inv ++ alr).map (fun i => s.batch.getD i 0) ∨
        oid ∈ s.droppedOids := by
      intro oid hoid
      rcases hacc oid hoid with hm | hm | hm | hm
      · obtain ⟨⟨n, hn⟩, hget⟩ := List.mem_iff_get.mp hm
        by_cases hns : n ∈ (((inv ++ alr) ++ act).dedup).insertionSort (fun a b => b ≤ a)
        · rcases (hmem_sorted n).mp hns with (hn' | hn') | hn'
          · refine Or.inr (Or.inr (Or.inl (List.mem_append_right _ ?_)))
            have hnb : n < s.batch.length := hinv_lt n hn'
            rw [← hget, ← hval n hnb hn]
            exact List.mem_map_of_mem _ (List.mem_append_left _ hn')
          · refine Or.inr (Or.inr (Or.inl (List.mem_append_right _ ?_)))
            have hnb : n < s.batch.length := halr_lt' n hn'
            rw [← hget, ← hval n hnb hn]
            exact List.mem_map_of_mem _ (List.mem_append_right _ hn')
          · refine Or.inl (List.mem_append_right _ ?_)
            have hnb : n < s.batch.length := hact_lt' n hn'
            rw [← hget, ← hval n hnb hn, h3]
            exact List.mem_map_of_mem _ hn'
        · refine Or.inl (List.mem_append_left _ ?_)
          rw [← hget]
          exact mem_keepIdx_of_not_bad s.left _ 0 n hn (by simpa using hns)
      · exact Or.inr (Or.inl hm)
      · exact Or.inr (Or.inr (Or.inl (List.mem_append_left _ hm)))
      · exact Or.inr (Or.inr (Or.inr hm))
    have hDisj' : ∀ oid ∈
        keepIdx s.left ((((inv ++ alr) ++ act).dedup).insertionSort (fun a b => b ≤ a)) 0 ++ np,
        oid ∉ s.landedOids ∧
        oid ∉ s.invalidOids ++ (inv ++ alr).map (fun i => s.batch.getD i 0) ∧
        oid ∉ s.droppedOids := by
      intro oid hmem
      have hinleft : oid ∈ s.left := by
        rcases List.mem_append.mp hmem with hm | hm
        · exact hkeep_sub.mem hm
        · exact hnp_in_left oid hm
      have hold := hdisjI oid hinleft
      refine ⟨hold.1, ?_, hold.2.2⟩
      intro hc
      rcases List.mem_append.mp hc with hc' | hc'
      · exact hold.2.1 hc'
      · rcases List.mem_append.mp hmem with hm | hm
        · exact hinvmap_not_keep oid hc' hm
        · exact hnp_not_invmap oid hm hc'
    have hSub' : ∀ oid ∈
        keepIdx s.left ((((inv ++ alr) ++ act).dedup).insertionSort (fun a b => b ≤ a)) 0 ++ np,
        oid ∈ L0 := by
      intro oid hmem
      rcases List.mem_append.mp hmem with hm | hm
      · exact hsub oid (hkeep_sub.mem hm)
      · exact hsub oid (hnp_in_left oid hm)
    -- discharge the goal through the branch equation
    simp only [planApply, hPeq] at h
    rw [if_neg hemp] at h
    by_cases hbe : (List.foldl (fun b i => b.eraseIdx i) s.batch
        ((((inv ++ alr) ++ act).dedup).insertionSort (fun a b => b ≤ a))).isEmpty
    · rw [if_pos hbe] at h
      rcases h with h | h
      · cases h
      · cases h
        refine ⟨⟨List.nil_prefix, ?_⟩, ?_, ?_, ?_⟩
        · show (List.foldl (fun l i => l.eraseIdx i) left2 _).Nodup
          rw [hleftfold]
          exact hWF'
        · intro oid hoid
          have := hAcc' oid hoid
          rw [← hleftfold] at this
          exact this
        · intro oid hoid
          rw [hleftfold] at hoid
          exact hDisj' oid hoid
        · intro oid hoid
          rw [hleftfold] at hoid
          exact hSub' oid hoid
    · rw [if_neg hbe] at h
      rcases h with h | h
      · cases h
        refine ⟨⟨?_, ?_⟩, ?_, ?_, ?_⟩
        · show List.foldl (fun b i => b.eraseIdx i) s.batch _ <+:
            List.foldl (fun l i => l.eraseIdx i) left2 _
          rw [hleftfold, hbatchfold, hprefKeep]
          exact (List.prefix_append _ _).trans (List.prefix_append _ _)
        · show (List.foldl (fun l i => l.eraseIdx i) left2 _).Nodup
          rw [hleftfold]
          exact hWF'
        · intro oid hoid
          have := hAcc' oid hoid
          rw [← hleftfold] at this
          exact this
        · intro oid hoid
          rw [hleftfold] at hoid
          exact hDisj' oid hoid
        · intro oid hoid
          rw [hleftfold] at hoid
          exact hSub' oid hoid
      · cases h

/-- The catch block preserves the invariant. -/
theorem catchStep_pres (L0 : List Nat) (err : GErr) (s s' : St) (hI : SenderInv L0 s)
    (h : catchStep err s = .inner s' ∨ catchStep err s = .outer s') : SenderInv L0 s' := by
  cases err with
  | opResults l =>
      rw [catchStep_opResults] at h
      refine planApply_pres L0 _ _ _ s s' hI ?_ ?_ ?_ ?_ h
      · intro j hj
        exact (classifyLoop_bounds l s.batch.length 0 j (Or.inl hj)).2
      · intro j hj
        exact (classifyLoop_bounds l s.batch.length 0 j (Or.inr (Or.inl hj))).2
      · rw [List.nodup_iff_count_le_one]
        intro a
        have := classifyLoop_counts l s.batch.length 0 a
        omega
      · intro j hj hj2
        have := classifyLoop_counts l s.batch.length 0 j
        have c1 := List.count_pos_iff.mpr hj
        have c2 := List.count_pos_iff.mpr hj2
        omega
  | transport5xx =>
      rw [catchStep_retry GErr.transport5xx s rfl] at h
      exact transientStep_pres L0 _ s s' hI h
  | parseFail =>
      rw [catchStep_retry GErr.parseFail s rfl] at h
      exact transientStep_pres L0 _ s s' hI h
  | noResultCodes =>
      rw [catchStep_retry GErr.noResultCodes s rfl] at h
      exact transientStep_pres L0 _ s s' hI h
  | txInsufficientBalance =>
      rw [catchStep_retry GErr.txInsufficientBalance s rfl] at h
      exact transientStep_pres L0 _ s s' hI h
  | opsNotArray =>
      rw [catchStep_retry GErr.opsNotArray s rfl] at h
      exact transientStep_pres L0 _ s s' hI h

/-- One inner-loop iteration preserves the invariant. -/
theorem step_pres (L0 : List Nat) (e : GatewayEvent) (s s' : St) (hI : SenderInv L0 s)
    (h : step e s = .inner s' ∨ step e s = .outer s') : SenderInv L0 s' := by
  have hI1 : ∀ a, SenderInv L0 { s with attempts := s.attempts ++ [a] } :=
    fun a => senderInv_congr L0 s _ hI rfl rfl rfl rfl rfl
  cases e with
  | success =>
      cases hf : s.batch.findIdx?
          (fun oid => decide (SUPPLY_REFILL_LIMIT ≤ (s.store oid).amount)) with
      | none =>
          rw [step_success_none s hf] at h
          rcases h with h | h
          · rw [batchSuccess] at h
            cases h
          · exact batchSuccess_pres L0 _ s' (hI1 _) h
      | some li =>
          have hli : li < s.batch.length := by
            have := findIdx?_some_lt hf
            omega
          rw [step_success_some s li hf] at h
          exact largeSuccess_pres L0 li _ s' (hI1 _) hli h
  | failure err =>
      obtain ⟨a, ha⟩ := step_failure err s
      rw [ha] at h
      exact catchStep_pres L0 err _ s' (hI1 a) h

/-- Plan application never returns from `sendTransactions` directly. -/
theorem planApply_ne_done (inv mte : List Nat) (st : Store) (s : St) (r : RunResult) :
    planApply inv mte st s ≠ .done r := by
  intro h
  simp only [planApply] at h
  split at h
  · split at h <;> cases h
  · split at h <;> cases h

/-- A direct `error` return happens exactly in the transient branch with the
retry budget reached; the settlement logs are unchanged. -/
theorem step_done (e : GatewayEvent) (s : St) (r : RunResult) (h : step e s = .done r) :
    r.status = .error ∧ r.landedOids = s.landedOids ∧ r.invalidOids = s.invalidOids ∧
    r.droppedOids = s.droppedOids ∧ r.pushedOids = s.pushedOids ∧
    (∃ err, e = .failure err ∧ (handleSendError err s.batch s.store).res.retry = true) ∧
    3 ≤ s.badResponseRetry + 1 := by
  cases e with
  | success =>
      cases hf : s.batch.findIdx?
          (fun oid => decide (SUPPLY_REFILL_LIMIT ≤ (s.store oid).amount)) with
      | none =>
          rw [step_success_none s hf, batchSuccess] at h
          cases h
      | some li =>
          rw [step_success_some s li hf] at h
          simp only [largeSuccess] at h
          split at h <;> cases h
  | failure err =>
      obtain ⟨a, ha⟩ := step_failure err s
      rw [ha] at h
      cases hr : (handleSendError err s.batch s.store).res.retry with
      | true =>
          have hr1 : (handleSendError err ({ s with attempts := s.attempts ++ [a] } : St).batch
              ({ s with attempts := s.attempts ++ [a] } : St).store).res.retry = true := hr
          rw [catchStep_retry err _ hr1] at h
          rw [transientStep] at h
          split at h
          · cases h
            rename_i hcond
            exact ⟨rfl, rfl, rfl, rfl, rfl, ⟨err, rfl, hr⟩, hcond⟩
          · cases h
      | false =>
          cases err with
          | opResults l =>
              rw [catchStep_opResults] at h
              exact absurd h (planApply_ne_done _ _ _ _ _)
          | transport5xx => cases hr
          | parseFail => cases hr
          | noResultCodes => cases hr
          | txInsufficientBalance => cases hr
          | opsNotArray => cases hr

/-- Conversely, a classified transient error at exhausted budget returns
`error` directly. -/
theorem step_done_of_transient (err : GErr) (s : St)
    (hr : (handleSendError err s.batch s.store).res.retry = true)
    (hb : 3 ≤ s.badResponseRetry + 1) :
    ∃ r, step (.failure err) s = .done r ∧ r.status = .error := by
  obtain ⟨a, ha⟩ := step_failure err s
  have hr1 : (handleSendError err ({ s with attempts := s.attempts ++ [a] } : St).batch
      ({ s with attempts := s.attempts ++ [a] } : St).store).res.retry = true := hr
  rw [ha, catchStep_retry err _ hr1, transientStep]
  have hb1 : 3 ≤ ({ s with attempts := s.attempts ++ [a] } : St).badResponseRetry + 1 := hb
  rw [if_pos hb1]
  exact ⟨_, rfl, rfl⟩

/-- Inner-loop continuation keeps a nonempty current batch: every branch
that would empty it breaks to the outer loop instead. -/
theorem step_inner_batch_ne (e : GatewayEvent) (s s' : St) (hb : s.batch ≠ [])
    (h : step e s = .inner s') : s'.batch ≠ [] := by
  cases e with
  | success =>
      cases hf : s.batch.findIdx?
          (fun oid => decide (SUPPLY_REFILL_LIMIT ≤ (s.store oid).amount)) with
      | none =>
          rw [step_success_none s hf, batchSuccess] at h
          cases h
      | some li =>
          rw [step_success_some s li hf] at h
          simp only [largeSuccess] at h
          split at h
          · cases h
          · rename_i hcond
            cases h
            intro hc
            exact hcond (List.isEmpty_iff.mpr hc)
  | failure err =>
      obtain ⟨a, ha⟩ := step_failure err s
      rw [ha] at h
      cases hr : (handleSendError err s.batch s.store).res.retry with
      | true =>
          have hr1 : (handleSendError err ({ s with attempts := s.attempts ++ [a] } : St).batch
              ({ s with attempts := s.attempts ++ [a] } : St).store).res.retry = true := hr
          rw [catchStep_retry err _ hr1, transientStep] at h
          split at h
          · cases h
          · cases h
            exact hb
      | false =>
          cases err with
          | opResults l =>
              rw [catchStep_opResults] at h
              simp only [planApply] at h
              split at h
              · split at h
                · cases h
                · cases h
                  exact hb
              · split at h
                · cases h
                · rename_i hcond
                  cases h
                  intro hc
                  exact hcond (List.isEmpty_iff.mpr hc)
          | transport5xx => cases hr
          | parseFail => cases hr
          | noResultCodes => cases hr
          | txInsufficientBalance => cases hr
          | opsNotArray => cases hr

/-!
## Claim C1
-/

/-- C1 (counterexample): `sendTransactions` returns `ok` on a run in which
the only operation neither landed on chain, nor was converted to a landed
deferred claim, nor was individually ruled Invalid: five consecutive
`op_underfunded` codes with successful refills leave the removal set empty
each time, and at the fifth pass the operation-retry budget silently drops
the whole batch, after which the sender reports success. -/
theorem sender_ok_despite_dropped :
    (sendTransactions [{ destination := 7, amount := 5 }]
        (List.replicate 5 (.failure (.opResults [.opUnderfunded true])))).status = .ok ∧
    (sendTransactions [{ destination := 7, amount := 5 }]
        (List.replicate 5 (.failure (.opResults [.opUnderfunded true])))).submitted = [] ∧
    (sendTransactions [{ destination := 7, amount := 5 }]
        (List.replicate 5 (.failure (.opResults [.opUnderfunded true])))).landedOids = [] ∧
    (sendTransactions [{ destination := 7, amount := 5 }]
        (List.replicate 5 (.failure (.opResults [.opUnderfunded true])))).invalidOids = [] ∧
    (sendTransactions [{ destination := 7, amount := 5 }]
        (List.replicate 5 (.failure (.opResults [.opUnderfunded true])))).droppedOids = [0] := by
  decide

/-- C1 (amended): `sendTransactions` returns `ok` iff every admitted
operation is accounted for as landed on chain (directly or after a
deferred-claim conversion, which resubmits in place), individually ruled
Invalid, or dropped with its in-flight slice when a retry budget for the
batch was exhausted; and the `error` return arises exactly from the
transient-transport branch once `badResponseRetry` reaches 3 (the `fatal`
path is unreachable). -/
theorem sendTransactions_ok_iff (txs : List TxData) (trace : List GatewayEvent) :
    ((sendTransactions txs trace).status = .ok ↔
      ∀ oid ∈ List.range txs.length,
        oid ∈ (sendTransactions txs trace).landedOids ∨
        oid ∈ (sendTransactions txs trace).invalidOids ∨
        oid ∈ (sendTransactions txs trace).droppedOids) ∧
    (∀ (e : GatewayEvent) (s : St) (r : RunResult), step e s = .done r →
      r.status = .error ∧
      (∃ err, e = .failure err ∧ (handleSendError err s.batch s.store).res.retry = true) ∧
      3 ≤ s.badResponseRetry + 1) ∧
    (∀ (err : GErr) (s : St), (handleSendError err s.batch s.store).res.retry = true →
      3 ≤ s.badResponseRetry + 1 →
      ∃ r, step (.failure err) s = .done r ∧ r.status = .error) := by
  refine ⟨?_, ?_, ?_⟩
  · have hlen : (txs.insertionSort (fun a b => b.amount ≤ a.amount)).length = txs.length :=
      (List.perm_insertionSort _ txs).length_eq
    refine @run_ind
      (fun s => SenderInv (List.range txs.length) s ∧ s.batch ≠ [])
      (fun s => SenderInv (List.range txs.length) s)
      (fun r => (r.status = .ok ↔ ∀ oid ∈ List.range txs.length,
        oid ∈ r.landedOids ∨ oid ∈ r.invalidOids ∨ oid ∈ r.droppedOids))
      ?_ ?_ ?_ ?_ ?_ ?_ trace (initSt txs) ?_
    · intro s hs hne
      refine ⟨startBatch_pres _ s hs, ?_⟩
      show s.left.take (min 100 s.left.length) ≠ []
      intro hc
      have h0 : s.left.length ≠ 0 := fun h => hne (List.length_eq_zero.mp h)
      have hlt := congrArg List.length hc
      rw [List.length_take, List.length_nil] at hlt
      omega
    · intro e s s' hs hstep
      exact ⟨step_pres _ e s s' hs.1 (Or.inl hstep), step_inner_batch_ne e s s' hs.2 hstep⟩
    · intro e s s' hs hstep
      exact step_pres _ e s s' hs.1 (Or.inr hstep)
    · intro e s r hs hstep
      obtain ⟨hst, hland, hinv, hdrop, _, _, _⟩ := step_done e s r hstep
      constructor
      · intro hok
        rw [hst] at hok
        cases hok
      · intro hall
        exfalso
        obtain ⟨⟨⟨hpre, hnd⟩, hacc, hdisj, hsub⟩, hbne⟩ := hs
        obtain ⟨oid, hoid⟩ := List.exists_mem_of_ne_nil s.batch hbne
        have hoidl : oid ∈ s.left := hpre.subset hoid
        have hmem := hall oid (hsub oid hoidl)
        rw [hland, hinv, hdrop] at hmem
        have hD := hdisj oid hoidl
        tauto
    · intro s hs
      constructor
      · intro hok
        cases hok
      · intro hall
        exfalso
        obtain ⟨⟨⟨hpre, hnd⟩, hacc, hdisj, hsub⟩, hbne⟩ := hs
        obtain ⟨oid, hoid⟩ := List.exists_mem_of_ne_nil s.batch hbne
        have hoidl : oid ∈ s.left := hpre.subset hoid
        have hmem := hall oid (hsub oid hoidl)
        have hD := hdisj oid hoidl
        exact absurd hmem (by tauto)
    · intro s hs hleft
      constructor
      · intro _ oid hoid
        rcases hs.2.1 oid hoid with h | h | h | h
        · rw [hleft] at h
          cases h
        · exact Or.inl h
        · exact Or.inr (Or.inl h)
        · exact Or.inr (Or.inr h)
      · intro _
        rfl
    · refine ⟨⟨List.nil_prefix, ?_⟩, ?_, ?_, ?_⟩
      · exact List.nodup_range _
      · intro oid hoid
        refine Or.inl ?_
        show oid ∈ List.range (txs.insertionSort (fun a b => b.amount ≤ a.amount)).length
        rw [hlen]
        exact hoid
      · intro oid _
        exact ⟨List.not_mem_nil oid, List.not_mem_nil oid, List.not_mem_nil oid⟩
      · intro oid hoid
        have : oid ∈ List.range (txs.insertionSort (fun a b => b.amount ≤ a.amount)).length := hoid
        rw [hlen] at this
        exact this
  · intro e s r h
    obtain ⟨hst, _, _, _, _, herr, hb⟩ := step_done e s r h
    exact ⟨hst, herr, hb⟩
  · intro err s hr hb
    exact step_done_of_transient err s hr hb

/-- C1 (witness): on a single operation delivered by one successful
gateway call, the run is `ok` and the accounting side of the equivalence
is concretely satisfied. -/
theorem sendTransactions_ok_iff_witness :
    (sendTransactions [{ destination := 7, amount := 5 }] [.success]).status = .ok := by
  apply (sendTransactions_ok_iff [{ destination := 7, amount := 5 }] [.success]).1.mpr
  decide

/-!
## Claim C5 machinery: the moveToEnd flag discipline
-/

/-- Within the moveToEnd pass, an object is pushed only when its flag is
unset, and the push sets it: the count bound against the flag bit is
preserved. -/
theorem processMTE_count (batch mte : List Nat) :
    ∀ (st : Store) (left plog : List Nat),
    (∀ oid, plog.count oid ≤ (if (st oid).movedToEnd then 1 else 0)) →
    ∀ oid, ((processMTE mte batch st left plog).2.2.2.2).count oid ≤
      (if ((processMTE mte batch st left plog).1 oid).movedToEnd then 1 else 0) := by
  induction mte with
  | nil =>
      intro st left plog hyp oid
      simpa [processMTE] using hyp oid
  | cons idx rest ih =>
      intro st left plog hyp oid
      cases hfl : (st (batch.getD idx 0)).movedToEnd with
      | true =>
          rw [processMTE_cons_true idx rest batch st left plog hfl]
          exact ih st left plog hyp oid
      | false =>
          rw [processMTE_cons_false idx rest batch st left plog hfl]
          refine ih _ _ _ ?_ oid
          intro x
          rw [List.count_append]
          by_cases hx : x = batch.getD idx 0
          · subst hx
            have h0 := hyp (batch.getD idx 0)
            rw [hfl] at h0
            simp only [if_neg Bool.false_ne_true] at h0
            have hflag' : (updateStore st (batch.getD idx 0)
                (fun t => { t with movedToEnd := true }) (batch.getD idx 0)).movedToEnd = true := by
              rw [updateStore_same]
            rw [if_pos hflag']
            have hc1 : List.count (batch.getD idx 0) [batch.getD idx 0] = 1 := by
              rw [List.count_cons_self, List.count_nil]
            omega
          · rw [updateStore_other st _ _ _ hx]
            have h0 := hyp x
            have hcnt : List.count x [batch.getD idx 0] = 0 := by
              rw [List.count_eq_zero]
              intro hc
              exact hx (List.mem_singleton.mp hc)
            omega

/-- Whatever branch plan application takes, the resulting heap and push log
are those produced by the moveToEnd pass. -/
theorem planApply_fields (inv mte : List Nat) (st : Store) (s s' : St)
    (h : planApply inv mte st s = .inner s' ∨ planApply inv mte st s = .outer s') :
    s'.store = (processMTE mte s.batch st s.left s.pushedOids).1 ∧
    s'.pushedOids = (processMTE mte s.batch st s.left s.pushedOids).2.2.2.2 := by
  simp only [planApply] at h
  split at h
  · split at h
    · rcases h with h | h
      · cases h
      · cases h
        exact ⟨rfl, rfl⟩
    · rcases h with h | h
      · cases h
        exact ⟨rfl, rfl⟩
      · cases h
  · split at h
    · rcases h with h | h
      · cases h
      · cases h
        exact ⟨rfl, rfl⟩
    · rcases h with h | h
      · cases h
        exact ⟨rfl, rfl⟩
      · cases h

/-- Across one loop iteration: flags are monotone (never reset), and the
tail-push count stays bounded by the flag bit. -/
theorem step_flagcount (e : GatewayEvent) (s s' : St)
    (h : step e s = .inner s' ∨ step e s = .outer s')
    (hyp : ∀ oid, s.pushedOids.count oid ≤ (if (s.store oid).movedToEnd then 1 else 0)) :
    (∀ oid, s'.pushedOids.count oid ≤ (if (s'.store oid).movedToEnd then 1 else 0)) ∧
    (∀ oid, (s.store oid).movedToEnd = true → (s'.store oid).movedToEnd = true) := by
  cases e with
  | success =>
      cases hf : s.batch.findIdx?
          (fun oid => decide (SUPPLY_REFILL_LIMIT ≤ (s.store oid).amount)) with
      | none =>
          rw [step_success_none s hf, batchSuccess] at h
          rcases h with h | h
          · cases h
          · cases h
            exact ⟨hyp, fun _ hflag => hflag⟩
      | some li =>
          rw [step_success_some s li hf] at h
          simp only [largeSuccess] at h
          rcases h with h | h <;> (split at h <;> cases h) <;>
            exact ⟨hyp, fun _ hflag => hflag⟩
  | failure err =>
      obtain ⟨a, ha⟩ := step_failure err s
      rw [ha] at h
      cases hr : (handleSendError err s.batch s.store).res.retry with
      | true =>
          have hr1 : (handleSendError err ({ s with attempts := s.attempts ++ [a] } : St).batch
              ({ s with attempts := s.attempts ++ [a] } : St).store).res.retry = true := hr
          rw [catchStep_retry err _ hr1, transientStep] at h
          rcases h with h | h
          · split at h
            · cases h
            · cases h
              have hfl := fun oid =>
                (handleSendError_store_fields err s.batch s.store oid).1
              refine ⟨fun oid => ?_, fun oid hflag => ?_⟩
              · show s.pushedOids.count oid ≤ _
                rw [show ((handleSendError err s.batch s.store).store oid).movedToEnd
                    = (s.store oid).movedToEnd from hfl oid]
                exact hyp oid
              · show ((handleSendError err s.batch s.store).store oid).movedToEnd = true
                rw [hfl oid]
                exact hflag
          · split at h <;> cases h
      | false =>
          cases err with
          | opResults l =>
              rw [catchStep_opResults] at h
              obtain ⟨hstore, hpush⟩ := planApply_fields _ _ _ _ s' h
              have hfl := fun oid =>
                (handleSendError_store_fields (.opResults l) s.batch s.store oid).1
              obtain ⟨np, h1, h2, h3, h4, h5, h6, h7, h8, h9⟩ :=
                processMTE_char s.batch (classifyLoop l s.batch.length 0).2.1
                  ((handleSendError (.opResults l) s.batch s.store).store)
                  s.left s.pushedOids
              have hyp' : ∀ oid, s.pushedOids.count oid ≤
                  (if (((handleSendError (.opResults l) s.batch s.store).store oid).movedToEnd)
                    then 1 else 0) := by
                intro oid
                rw [hfl oid]
                exact hyp oid
              have hcount := processMTE_count s.batch (classifyLoop l s.batch.length 0).2.1
                ((handleSendError (.opResults l) s.batch s.store).store) s.left s.pushedOids
                hyp'
              refine ⟨fun oid => ?_, fun oid hflag => ?_⟩
              · rw [hstore, hpush]
                exact hcount oid
              · rw [hstore]
                rw [h8 oid]
                refine Or.inl ?_
                rw [hfl oid]
                exact hflag
          | transport5xx => cases hr
          | parseFail => cases hr
          | noResultCodes => cases hr
          | txInsufficientBalance => cases hr
          | opsNotArray => cases hr

/-!
## Claim C5
-/

/-- C5: the `movedToEnd` flag transitions at most once (false → true).  An
index classified MoveToEnd whose operation is already flagged is collected
into `alreadyMoved` (promoted to invalid) and not requeued; otherwise the
flag is set and the object is pushed to the tail of `transactionsLeft`.
Consequently, over any complete `sendTransactions` run, no object id is
appended to the tail more than once. -/
theorem movedToEnd_once :
    (∀ (idx : Nat) (rest batch : List Nat) (st : Store) (left plog : List Nat),
      (st (batch.getD idx 0)).movedToEnd = true →
      processMTE (idx :: rest) batch st left plog =
        ((processMTE rest batch st left plog).1,
         (processMTE rest batch st left plog).2.1,
         (processMTE rest batch st left plog).2.2.1,
         idx :: (processMTE rest batch st left plog).2.2.2.1,
         (processMTE rest batch st left plog).2.2.2.2)) ∧
    (∀ (idx : Nat) (rest batch : List Nat) (st : Store) (left plog : List Nat),
      (st (batch.getD idx 0)).movedToEnd = false →
      processMTE (idx :: rest) batch st left plog =
        ((processMTE rest batch
            (updateStore st (batch.getD idx 0) (fun t => { t with movedToEnd := true }))
            (left ++ [batch.getD idx 0]) (plog ++ [batch.getD idx 0])).1,
         (processMTE rest batch
            (updateStore st (batch.getD idx 0) (fun t => { t with movedToEnd := true }))
            (left ++ [batch.getD idx 0]) (plog ++ [batch.getD idx 0])).2.1,
         idx :: (processMTE rest batch
            (updateStore st (batch.getD idx 0) (fun t => { t with movedToEnd := true }))
            (left ++ [batch.getD idx 0]) (plog ++ [batch.getD idx 0])).2.2.1,
         (processMTE rest batch
            (updateStore st (batch.getD idx 0) (fun t => { t with movedToEnd := true }))
            (left ++ [batch.getD idx 0]) (plog ++ [batch.getD idx 0])).2.2.2.1,
         (processMTE rest batch
            (updateStore st (batch.getD idx 0) (fun t => { t with movedToEnd := true }))
            (left ++ [batch.getD idx 0]) (plog ++ [batch.getD idx 0])).2.2.2.2)) ∧
    (∀ (txs : List TxData) (trace : List GatewayEvent) (oid : Nat),
      (sendTransactions txs trace).pushedOids.count oid ≤ 1) := by
  refine ⟨processMTE_cons_true, processMTE_cons_false, ?_⟩
  intro txs trace oid
  have hQ := @run_ind
    (fun s => ∀ x, s.pushedOids.count x ≤ (if (s.store x).movedToEnd then 1 else 0))
    (fun s => ∀ x, s.pushedOids.count x ≤ (if (s.store x).movedToEnd then 1 else 0))
    (fun r => ∀ x, r.pushedOids.count x ≤ 1)
    (fun s hs _ => hs)
    (fun e s s' hs hstep => (step_flagcount e s s' (Or.inl hstep) hs).1)
    (fun e s s' hs hstep => (step_flagcount e s s' (Or.inr hstep) hs).1)
    (fun e s r hs hstep => by
      intro x
      obtain ⟨_, _, _, _, hpush, _, _⟩ := step_done e s r hstep
      rw [hpush]
      have := hs x
      split at this <;> omega)
    (fun s hs => by
      intro x
      have := hs x
      show s.pushedOids.count x ≤ 1
      split at this <;> omega)
    (fun s hs _ => by
      intro x
      have := hs x
      show s.pushedOids.count x ≤ 1
      split at this <;> omega)
    trace (initSt txs)
    (by
      intro x
      show List.count x ([] : List Nat) ≤ _
      rw [List.count_nil]
      exact Nat.zero_le _)
  exact hQ oid

/-- C5 (witness): with the flag already set, the moveToEnd pass promotes
the index instead of requeueing, at a concrete one-element batch. -/
theorem movedToEnd_once_witness :
    ((fun _ => ({ movedToEnd := true } : TxData)) (List.getD [5] 0 0)).movedToEnd = true ∧
    processMTE [0] [5] (fun _ => { movedToEnd := true }) [] [] =
      ((processMTE [] [5] (fun _ => { movedToEnd := true }) [] []).1,
       (processMTE [] [5] (fun _ => { movedToEnd := true }) [] []).2.1,
       (processMTE [] [5] (fun _ => { movedToEnd := true }) [] []).2.2.1,
       0 :: (processMTE [] [5] (fun _ => { movedToEnd := true }) [] []).2.2.2.1,
       (processMTE [] [5] (fun _ => { movedToEnd := true }) [] []).2.2.2.2) ∧
    (sendTransactions [{ destination := 1, amount := 5 }, { destination := 2, amount := 4 }]
      [.failure (.opResults [.opUnderfunded false, .opSuccess]), .success,
        .success]).pushedOids.count 0 ≤ 1 := by
  refine ⟨rfl, ?_, ?_⟩
  · exact movedToEnd_once.1 0 [] [5] (fun _ => { movedToEnd := true }) [] [] rfl
  · exact movedToEnd_once.2.2 _ _ 0

/-!
## Claim C3
-/

/-- C3: the error classifier is total over the gateway failure shapes.
Transport 5xx, parse failures, absent result codes and a missing operations
array yield a transient retry with the heap untouched;
`tx_insufficient_balance` triggers the gas refill and then a transient
retry; and the per-operation pass marks exactly the spec table's indices —
`op_malformed`, `op_line_full`, failed `op_src_no_trust` trust-line
creation and unrecognized codes as invalid; failed `op_underfunded` refills
as MoveToEnd; `op_no_trust` converted in place to claimable balances —
keeping `op_success` operations, whenever the result codes do not outnumber
the batch. -/
theorem classifier_total (batch : List Nat) (st : Store) (l : List OpOutcome)
    (hlen : l.length ≤ batch.length) :
    handleSendError .transport5xx batch st = ⟨{ retry := true }, st, false⟩ ∧
    handleSendError .parseFail batch st = ⟨{ retry := true }, st, false⟩ ∧
    handleSendError .noResultCodes batch st = ⟨{ retry := true }, st, false⟩ ∧
    handleSendError .txInsufficientBalance batch st = ⟨{ retry := true }, st, true⟩ ∧
    handleSendError .opsNotArray batch st = ⟨{ retry := true }, st, false⟩ ∧
    handleSendError (.opResults l) batch st =
      ⟨{ retry := false,
         invalidIndices := some (specIdxFrom opInvalid l 0),
         moveToEndIndices := some (specIdxFrom opMoveToEnd l 0) },
       (specIdxFrom opConvert l 0).foldl
         (fun acc i => updateStore acc (batch.getD i 0) (fun t => { t with ttype := 1 })) st,
       false⟩ := by
  refine ⟨rfl, rfl, rfl, rfl, rfl, ?_⟩
  rw [handleSendError_opResults, classifyLoop_eq_spec l batch.length 0 (by omega)]

/-- C3 (witness): the classifier at a concrete three-operation batch. -/
theorem classifier_total_witness :
    handleSendError (.opResults [.opMalformed, .opNoTrust, .opUnderfunded false])
        [10, 20, 30] (fun _ => {}) =
      ⟨{ retry := false,
         invalidIndices := some [0],
         moveToEndIndices := some [2] },
       updateStore (fun _ => {}) 20 (fun t => { t with ttype := 1 }),
       false⟩ := by
  have h := (classifier_total [10, 20, 30] (fun _ => ({} : TxData))
    [.opMalformed, .opNoTrust, .opUnderfunded false] (by decide)).2.2.2.2.2
  rw [h]
  rfl

/-!
## Claim C4
-/

/-- C4: when the current batch contains an operation at or above
`SUPPLY_REFILL_LIMIT = 9·10^11`, the first such operation is cloned with the
amount clamped to the limit minus one, the clone is submitted alone, and on
success the original is removed from both `currentBatch` and
`transactionsLeft` (located by object identity), continuing the inner loop
on the shrunken batch; the outer loop is only re-entered when the batch is
thereby exhausted. -/
theorem large_tx_split (s : St) (li : Nat)
    (hpre : List.IsPrefix s.batch s.left) (hnd : s.left.Nodup)
    (hfi : s.batch.findIdx?
      (fun oid => decide (SUPPLY_REFILL_LIMIT ≤ (s.store oid).amount)) = some li) :
    SUPPLY_REFILL_LIMIT ≤ (s.store (s.batch.getD li 0)).amount ∧
    (∀ j, j < li → (s.store (s.batch.getD j 0)).amount < SUPPLY_REFILL_LIMIT) ∧
    (s.batch.eraseIdx li ≠ [] →
      step .success s = .inner
        { s with
          left := s.left.eraseIdx li
          batch := s.batch.eraseIdx li
          attempts := s.attempts ++ [[s.batch.getD li 0]]
          submitted := s.submitted ++
            [[{ s.store (s.batch.getD li 0) with amount := SUPPLY_REFILL_LIMIT - 1 }]]
          landedOids := s.landedOids ++ [s.batch.getD li 0] }) ∧
    (s.batch.eraseIdx li = [] →
      step .success s = .outer
        { s with
          left := s.left.eraseIdx li
          batch := []
          attempts := s.attempts ++ [[s.batch.getD li 0]]
          submitted := s.submitted ++
            [[{ s.store (s.batch.getD li 0) with amount := SUPPLY_REFILL_LIMIT - 1 }]]
          landedOids := s.landedOids ++ [s.batch.getD li 0] }) := by
  have hli : li < s.batch.length := by
    have := findIdx?_some_lt hfi
    omega
  have hlil : li < s.left.length := lt_of_lt_of_le hli hpre.length_le
  have hamt : SUPPLY_REFILL_LIMIT ≤ (s.store (s.batch.getD li 0)).amount := by
    have h := findIdx?_some_getD 0 hfi
    simp only [Nat.sub_zero] at h
    exact of_decide_eq_true h
  have hfirst : ∀ j, j < li → (s.store (s.batch.getD j 0)).amount < SUPPLY_REFILL_LIMIT := by
    intro j hj
    have h := findIdx?_first 0 hfi j (Nat.zero_le j) hj
    simp only [Nat.sub_zero] at h
    have := of_decide_eq_false h
    omega
  have hoid : s.batch.getD li 0 = s.left.get ⟨li, hlil⟩ := by
    rw [prefix_getD hpre 0 hli, getD_eq_get s.left 0 li hlil]
  have hfind : List.findIdx? (fun oid => oid == s.batch.getD li 0) s.left 0 = some li := by
    rw [hoid]
    exact nodup_findIdx_beq s.left li hnd hlil
  refine ⟨hamt, hfirst, ?_, ?_⟩
  · intro hne
    rw [step_success_some s li hfi]
    simp only [largeSuccess, hfind]
    rw [if_neg (fun hc => hne (List.isEmpty_iff.mp hc))]
  · intro hemp
    rw [step_success_some s li hfi]
    simp only [largeSuccess, hfind]
    rw [if_pos (List.isEmpty_iff.mpr hemp)]

/-- C4 (witness): concrete two-operation batch whose head is oversize; the
clamped clone lands and the inner loop continues on the one-element batch. -/
theorem large_tx_split_witness :
    step .success
      { store := fun i => if i = 0 then { amount := 900000000001 } else { amount := 5 }
        left := [0, 1, 2]
        batch := [0, 1]
        origSize := 2
        badResponseRetry := 0
        opRetry := 0
        submitted := []
        attempts := []
        landedOids := []
        invalidOids := []
        droppedOids := []
        pushedOids := []
        sleeps := [] } = .inner
      { store := fun i => if i = 0 then { amount := 900000000001 } else { amount := 5 }
        left := [1, 2]
        batch := [1]
        origSize := 2
        badResponseRetry := 0
        opRetry := 0
        submitted := [[{ amount := SUPPLY_REFILL_LIMIT - 1 }]]
        attempts := [[0]]
        landedOids := [0]
        invalidOids := []
        droppedOids := []
        pushedOids := []
        sleeps := [] } := by
  exact (large_tx_split
    { store := fun i => if i = 0 then { amount := 900000000001 } else { amount := 5 }
      left := [0, 1, 2]
      batch := [0, 1]
      origSize := 2
      badResponseRetry := 0
      opRetry := 0
      submitted := []
      attempts := []
      landedOids := []
      invalidOids := []
      droppedOids := []
      pushedOids := []
      sleeps := [] } 0 (by decide) (by decide) (by decide)).2.2.1 (by decide)

/-!
## Claim C6
-/

/-- C6 (amended): a transient-classified failure increments
`badResponseRetry`; if the incremented counter has reached
`MAX_TRANSIENT_RETRIES = 3` the sender immediately returns the permanent
failure, and otherwise it sleeps `3^badResponseRetry` seconds (with the
already-incremented counter) and retries.  Hence three consecutive 5xx
responses produce the back-off sequence 3 s, 9 s and the error return on
the third attempt. -/
theorem transient_retry_budget (err : GErr) (s : St)
    (hr : (handleSendError err s.batch s.store).res.retry = true) :
    (3 ≤ s.badResponseRetry + 1 →
      ∃ a, step (.failure err) s = .done (mkResult .error
        { s with
          attempts := s.attempts ++ [a]
          store := (handleSendError err s.batch s.store).store
          badResponseRetry := s.badResponseRetry + 1 })) ∧
    (s.badResponseRetry + 1 < 3 →
      ∃ a, step (.failure err) s = .inner
        { s with
          attempts := s.attempts ++ [a]
          store := (handleSendError err s.batch s.store).store
          badResponseRetry := s.badResponseRetry + 1
          sleeps := s.sleeps ++ [3 ^ (s.badResponseRetry + 1)] }) := by
  obtain ⟨a, ha⟩ := step_failure err s
  have hr1 : (handleSendError err ({ s with attempts := s.attempts ++ [a] } : St).batch
      ({ s with attempts := s.attempts ++ [a] } : St).store).res.retry = true := hr
  constructor
  · intro hb
    refine ⟨a, ?_⟩
    rw [ha, catchStep_retry err _ hr1, transientStep]
    have hb1 : 3 ≤ ({ s with attempts := s.attempts ++ [a] } : St).badResponseRetry + 1 := hb
    rw [if_pos hb1]
  · intro hb
    refine ⟨a, ?_⟩
    rw [ha, catchStep_retry err _ hr1, transientStep]
    have hb1 : ¬ 3 ≤ ({ s with attempts := s.attempts ++ [a] } : St).badResponseRetry + 1 := by
      show ¬ 3 ≤ s.badResponseRetry + 1
      omega
    rw [if_neg hb1]

/-- C6 (counterexample): under three consecutive 5xx responses the sender
sleeps 3 s and 9 s only and returns the permanent failure on the third
attempt — there is no 27 s back-off and no fourth attempt. -/
theorem transient_retry_budget_cex :
    (sendTransactions [{ destination := 1, amount := 5 }]
      [.failure .transport5xx, .failure .transport5xx, .failure .transport5xx]).status
        = .error ∧
    (sendTransactions [{ destination := 1, amount := 5 }]
      [.failure .transport5xx, .failure .transport5xx, .failure .transport5xx]).sleeps
        = [3, 9] ∧
    (sendTransactions [{ destination := 1, amount := 5 }]
      [.failure .transport5xx, .failure .transport5xx, .failure .transport5xx]).attempts
        = [[0], [0], [0]] := by
  decide

/-- C6 (witness): the amended budget rule at a concrete state with two
failures already recorded. -/
theorem transient_retry_budget_witness :
    ∃ a, step (.failure .transport5xx)
      { store := fun _ => { amount := 5 }
        left := [0]
        batch := [0]
        origSize := 1
        badResponseRetry := 2
        opRetry := 0
        submitted := []
        attempts := [[0], [0]]
        landedOids := []
        invalidOids := []
        droppedOids := []
        pushedOids := []
        sleeps := [3, 9] } = .done (mkResult .error
      { store := fun _ => ({ amount := 5 } : TxData)
        left := [0]
        batch := [0]
        origSize := 1
        badResponseRetry := 3
        opRetry := 0
        submitted := []
        attempts := [[0], [0], a]
        landedOids := []
        invalidOids := []
        droppedOids := []
        pushedOids := []
        sleeps := [3, 9] }) := by
  obtain ⟨a, ha⟩ := (transient_retry_budget .transport5xx
    { store := fun _ => { amount := 5 }
      left := [0]
      batch := [0]
      origSize := 1
      badResponseRetry := 2
      opRetry := 0
      submitted := []
      attempts := [[0], [0]]
      landedOids := []
      invalidOids := []
      droppedOids := []
      pushedOids := []
      sleeps := [3, 9] } rfl).1 (by decide)
  exact ⟨a, ha⟩

/-!
## Claim C9
-/

/-- C9 (amended): on a successful whole-batch submission, exactly the first
`currentBatch.length` elements of the remaining list are dropped — the
current (possibly shrunken) batch length, not the snapshotted
`originalBatchSize` — before breaking to the outer loop. -/
theorem success_drop_batch_length (s : St)
    (h : s.batch.findIdx?
      (fun oid => decide (SUPPLY_REFILL_LIMIT ≤ (s.store oid).amount)) = none) :
    step .success s = .outer
      { s with
        attempts := s.attempts ++ [s.batch]
        submitted := s.submitted ++ [s.batch.map s.store]
        landedOids := s.landedOids ++ s.batch
        left := s.left.drop s.batch.length
        batch := [] } := by
  rw [step_success_none s h, batchSuccess]

/-- C9 (counterexample): a batch shrinks from two operations to one via a
MoveToEnd removal; the following success drops only one element, so the
requeued operation is submitted again in a third attempt and lands — had
the first `originalBatchSize = 2` elements been dropped, there would be no
third attempt. -/
theorem success_drop_batch_length_cex :
    (sendTransactions [{ destination := 1, amount := 5 }, { destination := 2, amount := 4 }]
      [.failure (.opResults [.opUnderfunded false, .opSuccess]), .success,
        .success]).attempts = [[0, 1], [1], [0]] ∧
    (sendTransactions [{ destination := 1, amount := 5 }, { destination := 2, amount := 4 }]
      [.failure (.opResults [.opUnderfunded false, .opSuccess]), .success,
        .success]).landedOids = [1, 0] ∧
    (sendTransactions [{ destination := 1, amount := 5 }, { destination := 2, amount := 4 }]
      [.failure (.opResults [.opUnderfunded false, .opSuccess]), .success,
        .success]).status = .ok := by
  decide

/-- C9 (witness): the amended drop rule at a concrete state whose batch has
shrunk to one operation while `originalBatchSize` is two. -/
theorem success_drop_batch_length_witness :
    step .success
      { store := fun _ => { amount := 5 }
        left := [1, 0]
        batch := [1]
        origSize := 2
        badResponseRetry := 0
        opRetry := 0
        submitted := []
        attempts := [[0, 1]]
        landedOids := []
        invalidOids := []
        droppedOids := []
        pushedOids := [0]
        sleeps := [] } = .outer
      { store := fun _ => ({ amount := 5 } : TxData)
        left := [0]
        batch := []
        origSize := 2
        badResponseRetry := 0
        opRetry := 0
        submitted := [[{ amount := 5 }]]
        attempts := [[0, 1], [1]]
        landedOids := [1]
        invalidOids := []
        droppedOids := []
        pushedOids := [0]
        sleeps := [] } := by
  exact success_drop_batch_length
    { store := fun _ => { amount := 5 }
      left := [1, 0]
      batch := [1]
      origSize := 2
      badResponseRetry := 0
      opRetry := 0
      submitted := []
      attempts := [[0, 1]]
      landedOids := []
      invalidOids := []
      droppedOids := []
      pushedOids := [0]
      sleeps := [] } (by decide)

/-!
## Claim C10
-/

/-- C10: when the per-operation pass marks nothing (empty removal set) and
`operationErrorRetry` reaches 5, the sender drops the first
`originalBatchSize` elements of the current — possibly already shortened —
remaining list.  Concretely, with 101 equal-amount operations, one
operation ruled invalid out of the first batch of 100 and the retry budget
then exhausting, operation 100 (never part of any in-flight batch) is
silently discarded: the run ends `ok` with 100 among the dropped ids and
absent from every attempt, the landed ids and the invalid ids. -/
theorem stale_origSize_drop :
    (∀ (l : List OpOutcome) (s : St),
      (classifyLoop l s.batch.length 0).1 = [] →
      (classifyLoop l s.batch.length 0).2.1 = [] →
      5 ≤ s.opRetry + 1 →
      ∃ a, step (.failure (.opResults l)) s = .outer
        { s with
          attempts := s.attempts ++ [a]
          store := (handleSendError (.opResults l) s.batch s.store).store
          left := s.left.drop s.origSize
          batch := []
          opRetry := s.opRetry + 1
          droppedOids := s.droppedOids ++ s.left.take s.origSize }) ∧
    sendTransactions
      ((List.range 101).map (fun i => { destination := i, amount := 5 }))
      (.failure (.opResults (List.replicate 99 .opSuccess ++ [.opMalformed])) ::
        List.replicate 5 (.failure (.opResults [.opUnderfunded true]))) =
      ⟨.ok, [], List.range 100 :: List.replicate 5 (List.range 99), [], [99],
        List.range 99 ++ [100], [], [1, 1, 1, 1]⟩ := by
  constructor
  · intro l s hinv hmte ho
    obtain ⟨a, ha⟩ := step_failure (.opResults l) s
    refine ⟨a, ?_⟩
    rw [ha, catchStep_opResults]
    have hinv1 : (classifyLoop l ({ s with attempts := s.attempts ++ [a] } : St).batch.length
        0).1 = [] := hinv
    have hmte1 : (classifyLoop l ({ s with attempts := s.attempts ++ [a] } : St).batch.length
        0).2.1 = [] := hmte
    rw [hinv1, hmte1]
    simp only [planApply, processMTE, List.append_nil, List.nil_append, List.dedup_nil,
      List.isEmpty_nil, if_true]
    have ho1 : 5 ≤ ({ s with attempts := s.attempts ++ [a] } : St).opRetry + 1 := ho
    rw [if_pos ho1]
  · decide

/-- C10 (witness): the exhaustion rule at a concrete state whose batch
shrank to one operation while two remain pending. -/
theorem stale_origSize_drop_witness :
    ∃ a, step (.failure (.opResults [.opUnderfunded true]))
      { store := fun _ => { amount := 5 }
        left := [5, 9]
        batch := [5]
        origSize := 2
        badResponseRetry := 0
        opRetry := 4
        submitted := []
        attempts := []
        landedOids := []
        invalidOids := []
        droppedOids := []
        pushedOids := []
        sleeps := [] } = .outer
      { store := fun _ => ({ amount := 5 } : TxData)
        left := []
        batch := []
        origSize := 2
        badResponseRetry := 0
        opRetry := 5
        submitted := []
        attempts := [a]
        landedOids := []
        invalidOids := []
        droppedOids := [5, 9]
        pushedOids := []
        sleeps := [] } := by
  obtain ⟨a, ha⟩ := stale_origSize_drop.1 [.opUnderfunded true]
    { store := fun _ => { amount := 5 }
      left := [5, 9]
      batch := [5]
      origSize := 2
      badResponseRetry := 0
      opRetry := 4
      submitted := []
      attempts := []
      landedOids := []
      invalidOids := []
      droppedOids := []
      pushedOids := []
      sleeps := [] } (by decide) (by decide) (by decide)
  exact ⟨a, ha⟩

/-!
## Claim C2
-/

namespace DistributorQueueService

/-- With no queues registered, the slicing loop discards the first spliced
batch when `getSmallestQueue` throws and the catch exits the loop. -/
theorem regLoopAux_no_queues (fuel : Nat) (pend : List RTx) (ip : Bool)
    (adm : List (Nat × List RTx)) (hf : pend ≠ [] → 1 ≤ fuel) :
    regLoopAux fuel ⟨[], pend, ip, adm⟩ = ⟨[], pend.drop 100, ip, adm⟩ := by
  cases fuel with
  | zero =>
      have hpe : pend = [] := by
        by_contra h
        exact absurd (hf h) (by omega)
      subst hpe
      rfl
  | succ n =>
      by_cases hpe : pend = []
      · subst hpe
        rfl
      · rw [regLoopAux]
        rw [if_neg (fun hc => hpe (List.isEmpty_iff.mp hc))]
        rfl

end DistributorQueueService

/-- C2 (amended): with no distributor queues registered and no admission in
progress, `append` swallows the `'No queues available'` failure: the first
spliced batch (up to 100 operations) is discarded — not restored to the
pending buffer — the remainder stays pending, nothing is admitted, and no
error reaches the caller (the method returns normally in every case). -/
theorem append_no_queues (ops : List DistributorQueueService.RTx)
    (s : DistributorQueueService.RegState)
    (hp : s.isProcessing = false) (hq : s.queues = []) :
    DistributorQueueService.append ops s =
      { s with
        pending := (s.pending ++ ops).drop 100
        isProcessing := false } := by
  obtain ⟨qs, pend, ip, adm⟩ := s
  simp only at hp hq
  subst hp hq
  rw [DistributorQueueService.append]
  rw [if_neg (by exact Bool.false_ne_true)]
  have h := DistributorQueueService.regLoopAux_no_queues (pend ++ ops).length
    (pend ++ ops) true adm
    (fun hne => by
      have := List.length_pos.mpr hne
      omega)
  rw [DistributorQueueService.regLoop]
  rw [h]

set_option maxRecDepth 10000 in
/-- C2 (counterexample): admitting 150 operations against an empty registry
silently loses the first 100 — the pending buffer ends with only the last
50, nothing is admitted, and no error is reported. -/
theorem append_no_queues_cex :
    (DistributorQueueService.append
      ((List.range 150).map (fun i => { destination := i, amount := 1 }))
      { queues := [], pending := [], isProcessing := false, admitted := [] }).admitted
        = [] ∧
    (DistributorQueueService.append
      ((List.range 150).map (fun i => { destination := i, amount := 1 }))
      { queues := [], pending := [], isProcessing := false, admitted := [] }).pending
        = ((List.range 150).map (fun i => { destination := i, amount := 1 })).drop 100 ∧
    (DistributorQueueService.append
      ((List.range 150).map (fun i => { destination := i, amount := 1 }))
      { queues := [], pending := [], isProcessing := false, admitted := [] }).pending.length
        = 50 := by
  decide

/-- C2 (witness): the amended admission rule at a concrete registry. -/
theorem append_no_queues_witness :
    DistributorQueueService.append [{ destination := 1, amount := 2 }]
      { queues := [], pending := [{ destination := 3, amount := 4 }],
        isProcessing := false, admitted := [] } =
      { queues := [], pending := [], isProcessing := false, admitted := [] } := by
  exact append_no_queues [{ destination := 1, amount := 2 }]
    { queues := [], pending := [{ destination := 3, amount := 4 }],
      isProcessing := false, admitted := [] } rfl rfl

/-!
## Claim C7
-/

/-- C7 (amended): `append(b)` pushes the item to the end of the queue and
starts a worker exactly when none is running, regardless of the lifecycle
flag: `active` is never consulted and no enqueue ever fails.  `quit()` only
clears `active`, and a worker started on an inactive queue exits at once
without processing anything. -/
theorem queue_append_ignores_active :
    (∀ (q : TransactionQueue.TQ) (item : TransactionQueue.QItem),
      TransactionQueue.append q item =
        ({ q with queue := q.queue ++ [item] }, !q.processing)) ∧
    (∀ q : TransactionQueue.TQ, TransactionQueue.quit q = { q with active := false }) ∧
    (∀ (tr : List Bool) (q : TransactionQueue.TQ), q.active = false →
      TransactionQueue.process tr q = { q with processing := false }) := by
  refine ⟨fun q item => rfl, fun q => rfl, ?_⟩
  intro tr q hact
  rw [TransactionQueue.process.eq_def]
  dsimp only
  rw [if_neg (fun hc => Bool.false_ne_true (hact ▸ hc.1))]

/-- C7 (counterexample): after `quit()` the queue is inactive, yet `append`
still succeeds — the item is enqueued and a worker is started; there is no
`QueueClosed` failure path. -/
theorem queue_append_ignores_active_cex :
    TransactionQueue.append
      (TransactionQueue.quit { queue := [], processing := false, active := true })
      { itemId := 1, opCount := 2, retryCount := 0 } =
      ({ queue := [{ itemId := 1, opCount := 2, retryCount := 0 }],
         processing := false, active := false }, true) := by
  decide

/-- C7 (witness): the worker started on a quit queue exits immediately. -/
theorem queue_append_ignores_active_witness :
    TransactionQueue.process [true, false]
      { queue := [{ itemId := 1, opCount := 2, retryCount := 0 }],
        processing := true, active := false } =
      { queue := [{ itemId := 1, opCount := 2, retryCount := 0 }],
        processing := false, active := false } := by
  exact queue_append_ignores_active.2.2 [true, false]
    { queue := [{ itemId := 1, opCount := 2, retryCount := 0 }],
      processing := true, active := false } rfl

/-!
## Claim C8
-/

namespace DistributorQueueService

/-- Once the running minimum is a queue of size 0, no later queue can be
strictly smaller, so the tracked position never changes. -/
theorem smallestAux_zero (qs : List RQueue) :
    ∀ (i bi : Nat), smallestAux qs i (some (bi, 0)) = some (bi, 0) := by
  induction qs with
  | nil => intro i bi; rfl
  | cons q rest ih =>
      intro i bi
      simp only [smallestAux]
      rw [if_neg (Nat.not_lt_zero _)]
      exact ih (i + 1) bi

/-- When the first registered queue is empty, `getSmallestQueue` selects it:
iteration order wins every tie. -/
theorem getSmallestQueue_head_empty (q0 : RQueue) (qrest : List RQueue)
    (h : q0.items = []) :
    getSmallestQueue (q0 :: qrest) = some 0 := by
  have hs : smallestAux (q0 :: qrest) 0 none = some (0, 0) := by
    simp only [smallestAux]
    rw [h]
    exact smallestAux_zero qrest 1 0
  rw [getSmallestQueue, hs]
  rfl

/-- Unfolding of one `chunkArray` step on a nonempty list. -/
theorem chunkAux_cons_eq (fuel : Nat) (a : RTx) (t : List RTx) :
    chunkAux (fuel + 1) (a :: t) =
      (a :: t).take 100 :: chunkAux fuel ((a :: t).drop 100) := rfl

/-- `chunkArray`'s fuel is irrelevant above the list length. -/
theorem chunkAux_congr (f1 : Nat) :
    ∀ (f2 : Nat) (l : List RTx), l.length ≤ f1 → l.length ≤ f2 →
    chunkAux f1 l = chunkAux f2 l := by
  induction f1 with
  | zero =>
      intro f2 l h1 _
      have hl : l = [] := List.eq_nil_of_length_eq_zero (Nat.le_zero.mp h1)
      subst hl
      cases f2 <;> rfl
  | succ n ih =>
      intro f2 l h1 h2
      cases l with
      | nil => cases f2 <;> rfl
      | cons a t =>
          cases f2 with
          | zero => simp at h2
          | succ m =>
              rw [chunkAux_cons_eq, chunkAux_cons_eq]
              congr 1
              apply ih
              · rw [List.length_drop]
                simp only [List.length_cons] at h1 ⊢
                omega
              · rw [List.length_drop]
                simp only [List.length_cons] at h2 ⊢
                omega

/-- Unfolding of `chunkArray` on a nonempty list. -/
theorem chunk100_cons (l : List RTx) (h : l ≠ []) :
    chunk100 l = l.take 100 :: chunk100 (l.drop 100) := by
  cases l with
  | nil => exact absurd rfl h
  | cons a t =>
      rw [chunk100, List.length_cons, chunkAux_cons_eq]
      congr 1
      apply chunkAux_congr
      · rw [List.length_drop]
        simp only [List.length_cons]
        omega
      · exact le_refl _

/-- The chunks concatenate back to the original list: slicing loses and
reorders nothing. -/
theorem chunkAux_flatten_le (fuel : Nat) :
    ∀ l : List RTx, l.length ≤ fuel → (chunkAux fuel l).flatten = l := by
  induction fuel with
  | zero =>
      intro l h
      have hl : l = [] := List.eq_nil_of_length_eq_zero (Nat.le_zero.mp h)
      subst hl
      rfl
  | succ n ih =>
      intro l h
      cases l with
      | nil => rfl
      | cons a t =>
          rw [chunkAux_cons_eq, List.flatten_cons]
          rw [ih _ (by
            rw [List.length_drop]
            simp only [List.length_cons] at h ⊢
            omega)]
          exact List.take_append_drop 100 (a :: t)

/-- Every chunk holds at most 100 operations. -/
theorem chunkAux_size_le (fuel : Nat) :
    ∀ (l b : List RTx), b ∈ chunkAux fuel l → b.length ≤ 100 := by
  induction fuel with
  | zero => intro l b hb; simp [chunkAux] at hb
  | succ n ih =>
      intro l b hb
      cases l with
      | nil => simp [chunkAux] at hb
      | cons a t =>
          rw [chunkAux_cons_eq] at hb
          rcases List.mem_cons.mp hb with rfl | hb'
          · simpa using List.length_take_le 100 (a :: t)
          · exact ih _ b hb'

/-- The slicing loop when the first registered queue is empty: because the
private queue drains synchronously inside `append`, its size is 0 at every
selection, so every slice goes to the first queue in iteration order. -/
theorem regLoopAux_first_queue (fuel : Nat) :
    ∀ (q0 : RQueue) (qrest : List RQueue) (pend : List RTx) (ip : Bool)
      (adm : List (Nat × List RTx)),
    q0.items = [] → pend.length ≤ fuel →
    ∃ q0' : RQueue, q0'.qid = q0.qid ∧ q0'.items = [] ∧
      regLoopAux fuel ⟨q0 :: qrest, pend, ip, adm⟩ =
        ⟨q0' :: qrest, [], ip, adm ++ (chunk100 pend).map (fun b => (q0.qid, b))⟩ := by
  induction fuel with
  | zero =>
      intro q0 qrest pend ip adm h0 hlen
      have hpe : pend = [] := List.eq_nil_of_length_eq_zero (Nat.le_zero.mp hlen)
      subst hpe
      exact ⟨q0, rfl, h0, by simp [regLoopAux, chunk100, chunkAux]⟩
  | succ n ih =>
      intro q0 qrest pend ip adm h0 hlen
      by_cases hpe : pend = []
      · subst hpe
        exact ⟨q0, rfl, h0, by simp [regLoopAux, chunk100, chunkAux]⟩
      · obtain ⟨q0', hqid, hitems, hrec⟩ := ih (drainAppend q0 (pend.take 100)) qrest
          (pend.drop 100) ip (adm ++ [(q0.qid, pend.take 100)]) rfl
          (by
            rw [List.length_drop]
            have h1 : pend.length ≤ n + 1 := hlen
            have h2 : 1 ≤ pend.length := List.length_pos.mpr hpe
            omega)
        refine ⟨q0', hqid, hitems, ?_⟩
        rw [regLoopAux]
        rw [if_neg (fun hc => hpe (List.isEmpty_iff.mp hc))]
        dsimp only
        rw [getSmallestQueue_head_empty q0 qrest h0]
        dsimp only
        rw [List.getD_cons_zero, List.set_cons_zero]
        rw [hrec]
        rw [chunk100_cons pend hpe, List.map_cons, List.append_assoc]
        rfl

end DistributorQueueService

/-- C8 (amended): `append` buffers the operations and slices the pending
buffer into batches of at most 100 that concatenate back to the buffered
input in order; each slice is enqueued on the first queue in map iteration
order attaining the running strict minimum of `size()` — ties go to the
earliest-registered queue, not the lowest queue id — and since the private
queue drains synchronously inside `append`, every selection sees size 0, so
with the first registered queue empty all slices go to that queue.  With
one registered queue, 250 operations yield exactly three admitted batches
of sizes 100, 100 and 50. -/
theorem submit_slices_iteration_order :
    (∀ (l b : List DistributorQueueService.RTx),
      b ∈ DistributorQueueService.chunk100 l → b.length ≤ 100) ∧
    (∀ l : List DistributorQueueService.RTx,
      (DistributorQueueService.chunk100 l).flatten = l) ∧
    (∀ (ops : List DistributorQueueService.RTx)
       (s : DistributorQueueService.RegState)
       (q0 : DistributorQueueService.RQueue)
       (qrest : List DistributorQueueService.RQueue),
      s.isProcessing = false → s.queues = q0 :: qrest → q0.items = [] →
      ∃ q0' : DistributorQueueService.RQueue, q0'.qid = q0.qid ∧ q0'.items = [] ∧
        DistributorQueueService.append ops s =
          ⟨q0' :: qrest, [], false,
            s.admitted ++ (DistributorQueueService.chunk100 (s.pending ++ ops)).map
              (fun b => (q0.qid, b))⟩) := by
  refine ⟨fun l b hb => DistributorQueueService.chunkAux_size_le l.length l b hb,
    fun l => DistributorQueueService.chunkAux_flatten_le l.length l (le_refl _), ?_⟩
  intro ops s q0 qrest hp hq h0
  obtain ⟨qs, pend, ip, adm⟩ := s
  simp only at hp hq
  subst hp hq
  obtain ⟨q0', hqid, hitems, hrec⟩ := DistributorQueueService.regLoopAux_first_queue
    (pend ++ ops).length q0 qrest (pend ++ ops) true adm h0 (le_refl _)
  refine ⟨q0', hqid, hitems, ?_⟩
  rw [DistributorQueueService.append]
  rw [if_neg (by exact Bool.false_ne_true)]
  rw [DistributorQueueService.regLoop]
  rw [hrec]

set_option maxRecDepth 10000 in
/-- C8 (counterexample): two equally-sized (empty) queues registered in the
order qid 2, qid 1: every slice of a 150-operation submission is admitted
on qid 2 — map iteration order, not the lowest queue id, breaks the tie.
The sizes 100 and 50 of the two slices are as specified. -/
theorem submit_slices_iteration_order_cex :
    (DistributorQueueService.append
      ((List.range 150).map (fun i => { destination := i, amount := 1 }))
      { queues := [{ qid := 2, items := [], processedLog := [] },
                   { qid := 1, items := [], processedLog := [] }],
        pending := [], isProcessing := false, admitted := [] }).admitted.map
      (fun p => (p.1, p.2.length)) = [(2, 100), (2, 50)] := by
  decide

set_option maxRecDepth 20000 in
/-- C8 (witness): one registered queue and 250 operations — exactly three
batches, of sizes 100, 100 and 50, all admitted on that queue. -/
theorem submit_slices_iteration_order_witness :
    (∃ q0' : DistributorQueueService.RQueue, q0'.qid = 1 ∧ q0'.items = [] ∧
      DistributorQueueService.append
        ((List.range 250).map (fun i => { destination := i, amount := 1 }))
        { queues := [{ qid := 1, items := [], processedLog := [] }],
          pending := [], isProcessing := false, admitted := [] } =
        ⟨q0' :: [], [], false,
          (DistributorQueueService.chunk100
            ([] ++ (List.range 250).map (fun i => { destination := i, amount := 1 }))).map
            (fun b => (1, b))⟩) ∧
    (DistributorQueueService.chunk100
      ((List.range 250).map (fun i => { destination := i, amount := 1 }))).map
      List.length = [100, 100, 50] := by
  constructor
  · exact submit_slices_iteration_order.2.2
      ((List.range 250).map (fun i => { destination := i, amount := 1 }))
      { queues := [{ qid := 1, items := [], processedLog := [] }],
        pending := [], isProcessing := false, admitted := [] }
      { qid := 1, items := [], processedLog := [] } [] rfl rfl rfl
  · decide
